import Mathlib

/- Shallow embedding of
src/tick/optim/model/src/hawkes_fixed_sumexpkern_lag_loglik_custom.cpp
(class ModelHawkesSumExpCustomLag).

Doubles are modelled by an arbitrary linear ordered field; the C library
functions std.exp and std.log, which are external to the repository, are
abstract parameters named E and L.  Arrays indexed by event number or state are
modelled by total functions out of Nat; a second, Option-valued rendering of
the weight-computation loop, in which every array read is a checked List read,
is given further below for the bounds-safety analysis.  TICK_ERROR, which
raises a C++ exception, is modelled by returning none. -/

namespace HawkesLag

variable {α : Type} [LinearOrderedField α]

/-- The model data as it stands after set_data has run: D is n_nodes after the
final decrement (the modeled dimensions), M is n_total_jumps, T is end_time,
ts is global_timestamps (index 0..M, ts 0 = 0 virtual), tn is type_n (values
1..D+1, 0 at index 0), gn is global_n (state indices), decays and lags are the
kernel specification of size U, S is MaxN_of_f and Tot is Total_events. -/
structure HData (α : Type) where
  D : ℕ
  M : ℕ
  U : ℕ
  S : ℕ
  T : α
  ts : ℕ → α
  tn : ℕ → ℕ
  gn : ℕ → ℕ
  decays : ℕ → α
  lags : ℕ → α
  Tot : ℕ

/-- Modelled from the spec: the flat offset of alpha_u_i_j inside the
coefficient vector is defined by get_alpha_u_i_j_index in the class header,
which is not under src/; the spec fixes the layout as D baselines followed by
the D*D*U interaction block followed by the D*S link-function block. -/
def alphaIdx (H : HData α) (u i j : ℕ) : ℕ := H.D + u * H.D * H.D + i * H.D + j

/-- The offset of f_i[n] in the coefficient vector, from source lines 165, 238
and 321: n_nodes + n_nodes * n_nodes * U + i * MaxN_of_f + n. -/
def fIdx (H : HData α) (i n : ℕ) : ℕ := H.D + H.D * H.D * H.U + i * H.S + n

/-- Modelled from the spec: get_n_coeffs (declared outside src/) is the length
of the flat coefficient vector, D + D*D*U + D*S. -/
def nCoeffs (H : HData α) : ℕ := H.D + H.D * H.D * H.U + H.D * H.S

/-- The index list k = a, a+1, ..., b, in the order the C for-loops visit it. -/
def idxList (a b : ℕ) : List ℕ := (List.range (b + 1 - a)).map (fun t => a + t)

/-- The inner while-loop of compute_weights_dim_i (source lines 74-87):
starting at index ptr, scan the merged timeline while ts ptr < tk - lag,
folding each scanned event of source dimension j into the g and G increments,
and stop once the index passes M.  fuel is the loop variant M + 1 - ptr; the
result is (increment to g at step k, increment to G at step k, final value of
last_scanned_index). -/
def lagScan (E : α → α) (d l : α) (j M : ℕ) (ts : ℕ → α) (tn : ℕ → ℕ) (tk : α) :
    ℕ → ℕ → α × α × ℕ
  | ptr, 0 => (0, 0, ptr)
  | ptr, fuel + 1 =>
    if ts ptr < tk - l then
      let cg := if tn ptr = j + 1 then d * E (-(d * (tk - l - ts ptr))) else 0
      let cG := if tn ptr = j + 1 then 1 - E (-(d * (tk - l - ts ptr))) else 0
      if M < ptr + 1 then (cg, cG, ptr + 1)
      else
        let r := lagScan E d l j M ts tn tk (ptr + 1) fuel
        (cg + r.1, cG + r.2.1, r.2.2)
    else (0, 0, ptr)

/-- The timestamp used at step k of the weight loops (source line 67): the real
timestamp for k = 1..M and end_time at the virtual terminal step k = M + 1. -/
def tk (H : HData α) (k : ℕ) : α := if k = H.M + 1 then H.T else H.ts k

/-- One pass of the k-loop of compute_weights_dim_i (source lines 63-88) for a
fixed kernel (decay d, lag l) and source dimension j: step k = 1..M+1 updates
g by decay-only propagation plus the newly scanned events, and writes the
interval integral G; the scan index is carried from step to step.  The value at
k is (g[get_index(k, j, u)], G[get_index(k, j, u)], last_scanned_index). -/
def gG_rec (E : α → α) (M : ℕ) (T : α) (ts : ℕ → α) (tn : ℕ → ℕ) (d l : α) (j : ℕ) :
    ℕ → α × α × ℕ
  | 0 => (0, 0, 1)
  | k + 1 =>
    let p := gG_rec E M T ts tn d l j k
    let t := if k + 1 = M + 1 then T else ts (k + 1)
    let ebt := E (-(d * (t - ts k)))
    let s := lagScan E d l j M ts tn t p.2.2 (M + 1 - p.2.2)
    (p.1 * ebt + s.1, (1 - ebt) / d * p.1 + s.2.1, s.2.2)

/-- g[0][get_index(k, j, u)]: the shared recursive convolution value (written
only by the i = 0 thread, read by all, source lines 47, 71-72, 169, 243). -/
def g_arr (E : α → α) (H : HData α) (u j k : ℕ) : α :=
  (gG_rec E H.M H.T H.ts H.tn (H.decays u) (H.lags u) j k).1

/-- G[i][get_index(k, j, u)]: the per-interval integral of the convolution
(identical for every i, source lines 48, 70, 80). -/
def G_arr (E : α → α) (H : HData α) (u j k : ℕ) : α :=
  (gG_rec E H.M H.T H.ts H.tn (H.decays u) (H.lags u) j k).2.1

/-- The scan index after step k of the weight loop for kernel u, source j. -/
def ptr_arr (E : α → α) (H : HData α) (u j k : ℕ) : ℕ :=
  (gG_rec E H.M H.T H.ts H.tn (H.decays u) (H.lags u) j k).2.2

/-- The body of the term-2 event loop of loss_dim_i (source lines 184-199): on
an event satisfying P, fail if the intensity s is non-positive, else add v. -/
def t2step (P : ℕ → Prop) [DecidablePred P] (s v : ℕ → α) (o : Option α) (k : ℕ) :
    Option α :=
  match o with
  | none => none
  | some a => if P k then (if s k ≤ 0 then none else some (a + v k)) else some a

/-- sum_G_i_j_u, the inner k-loop of terms 5-6 (source lines 214-217):
the G column for (j, u) weighted by the link value on each interval. -/
def sum_G_i_j_u (Gf : ℕ → ℕ → ℕ → α) (H : HData α) (f_i : ℕ → α) (j u : ℕ) : α :=
  (idxList 1 (H.M + 1)).foldl (fun s k => s + Gf u j k * f_i (H.gn (k - 1))) 0

/-- loss_dim_i (source lines 160-223), parametrised by the cached weight
arrays gf and Gf; none models the TICK_ERROR raised on a non-positive
intensity.  The per-call reset of the member array sum_G (source line 207) only
zeroes scratch state that this function never reads; it is modelled in the
stateful wrapper below. -/
def loss_dim_iW (gf Gf : ℕ → ℕ → ℕ → α) (L : α → α) (H : HData α) (c : ℕ → α)
    (i : ℕ) : Option α :=
  let mu_i := c i
  let f_i : ℕ → α := fun n => c (fIdx H i n)
  let t1 := (idxList 1 H.M).foldl
    (fun a k => if H.tn k = i + 1 then a + L (f_i (H.gn (k - 1))) else a) 0
  let tmp_s : ℕ → α := fun k =>
    (List.range H.D).foldl (fun s j =>
      (List.range H.U).foldl (fun s u => s + c (alphaIdx H u i j) * gf u j k) s) mu_i
  let t2 := (idxList 1 H.M).foldl
    (t2step (fun k => H.tn k = i + 1) tmp_s (fun k => L (tmp_s k))) (some 0)
  t2.map (fun t2v =>
    let l3 := (idxList 1 H.M).foldl
      (fun a k => a - mu_i * (H.ts k - H.ts (k - 1)) * f_i (H.gn (k - 1))) (t1 + t2v);
    let l4 := l3 - mu_i * (H.T - H.ts H.M) * f_i (H.gn H.M);
    let l56 := (List.range H.D).foldl (fun a j =>
      (List.range H.U).foldl (fun a u =>
        a - c (alphaIdx H u i j) * sum_G_i_j_u Gf H f_i j u) a) l4;
    -H.T - l56)

/-- The body of the additive reduction over dimensions in loss
(source lines 151-155): any per-dimension error aborts the whole call. -/
def dimStep (w : ℕ → Option α) (o : Option α) (i : ℕ) : Option α :=
  match o with
  | none => none
  | some s =>
    match w i with
    | none => none
    | some v => some (s + v)

/-- loss (source lines 148-157), parametrised by the cached weight arrays:
the additive parallel reduction of loss_dim_i over i = 0..D-1, divided by
Total_events. -/
def lossW (gf Gf : ℕ → ℕ → ℕ → α) (L : α → α) (H : HData α) (c : ℕ → α) :
    Option α :=
  ((List.range H.D).foldl (dimStep (loss_dim_iW gf Gf L H c)) (some 0)).map
    (fun s => s / (H.Tot : α))

/-- loss_dim_i with the weight cache as compute_weights fills it. -/
def loss_dim_i (E L : α → α) (H : HData α) (c : ℕ → α) (i : ℕ) : Option α :=
  loss_dim_iW (g_arr E H) (G_arr E H) L H c i

/-- loss with the weight cache as compute_weights fills it. -/
def loss (E L : α → α) (H : HData α) (c : ℕ → α) : Option α :=
  lossW (g_arr E H) (G_arr E H) L H c

/-! Helper lemmas relating the sequential loop accumulations to finite sums. -/

lemma foldl_add_eq (l : List ℕ) (g : ℕ → α) (a : α) :
    l.foldl (fun s k => s + g k) a = a + (l.map g).sum := by
  induction l generalizing a with
  | nil => simp
  | cons x xs ih => simp [List.foldl_cons, ih, add_assoc]

lemma foldl_sub_eq (l : List ℕ) (g : ℕ → α) (a : α) :
    l.foldl (fun s k => s - g k) a = a - (l.map g).sum := by
  induction l generalizing a with
  | nil => simp
  | cons x xs ih => simp [List.foldl_cons, ih, sub_sub]

lemma foldl_ite_add_eq (l : List ℕ) (P : ℕ → Prop) [DecidablePred P] (g : ℕ → α)
    (a : α) :
    l.foldl (fun s k => if P k then s + g k else s) a
      = a + (l.map (fun k => if P k then g k else 0)).sum := by
  induction l generalizing a with
  | nil => simp
  | cons x xs ih =>
    by_cases h : P x
    · simp [List.foldl_cons, h, ih, add_assoc]
    · simp [List.foldl_cons, h, ih]

lemma list_range_map_sum (n : ℕ) (f : ℕ → α) :
    ((List.range n).map f).sum = ∑ k in Finset.range n, f k := by
  induction n with
  | zero => simp
  | succ m ih => rw [List.range_succ, Finset.sum_range_succ]; simp [ih]

lemma idxList_map_sum (a b : ℕ) (f : ℕ → α) :
    ((idxList a b).map f).sum = ∑ k in Finset.Icc a b, f k := by
  rw [idxList, List.map_map, ← Nat.Ico_succ_right, Finset.sum_Ico_eq_sum_range,
    list_range_map_sum]
  rfl

lemma mem_idxList {a b k : ℕ} : k ∈ idxList a b ↔ a ≤ k ∧ k ≤ b := by
  constructor
  · intro h
    rcases List.mem_map.mp h with ⟨t, ht, rfl⟩
    have := List.mem_range.mp ht
    omega
  · intro ⟨h1, h2⟩
    exact List.mem_map.mpr ⟨k - a, List.mem_range.mpr (by omega), by omega⟩

lemma foldl_nested_add_eq (D U : ℕ) (h : ℕ → ℕ → α) (a : α) :
    (List.range D).foldl (fun s j => (List.range U).foldl (fun s u => s + h j u) s) a
      = a + ∑ j in Finset.range D, ∑ u in Finset.range U, h j u := by
  have hstep : (fun (s : α) (j : ℕ) => (List.range U).foldl (fun s u => s + h j u) s)
      = fun s j => s + ∑ u in Finset.range U, h j u := by
    funext s j
    rw [foldl_add_eq, list_range_map_sum]
  rw [hstep, foldl_add_eq, list_range_map_sum]

lemma foldl_nested_sub_eq (D U : ℕ) (h : ℕ → ℕ → α) (a : α) :
    (List.range D).foldl (fun s j => (List.range U).foldl (fun s u => s - h j u) s) a
      = a - ∑ j in Finset.range D, ∑ u in Finset.range U, h j u := by
  have hstep : (fun (s : α) (j : ℕ) => (List.range U).foldl (fun s u => s - h j u) s)
      = fun s j => s - ∑ u in Finset.range U, h j u := by
    funext s j
    rw [foldl_sub_eq, list_range_map_sum]
  rw [hstep, foldl_sub_eq, list_range_map_sum]

lemma t2fold_from_none (P : ℕ → Prop) [DecidablePred P] (s v : ℕ → α) (l : List ℕ) :
    l.foldl (t2step P s v) none = none := by
  induction l with
  | nil => rfl
  | cons x xs ih => simpa [List.foldl_cons, t2step] using ih

lemma t2fold_none_iff (P : ℕ → Prop) [DecidablePred P] (s v : ℕ → α) (l : List ℕ)
    (a : α) :
    l.foldl (t2step P s v) (some a) = none ↔ ∃ k ∈ l, P k ∧ s k ≤ 0 := by
  induction l generalizing a with
  | nil => simp
  | cons x xs ih =>
    by_cases hP : P x
    · by_cases hs : s x ≤ 0
      · simp [List.foldl_cons, t2step, hP, hs, t2fold_from_none]
      · simp [List.foldl_cons, t2step, hP, hs, ih]
    · simp [List.foldl_cons, t2step, hP, ih]

lemma t2fold_pos (P : ℕ → Prop) [DecidablePred P] (s v : ℕ → α) (l : List ℕ) (a : α)
    (h : ∀ k ∈ l, P k → 0 < s k) :
    l.foldl (t2step P s v) (some a)
      = some (a + (l.map (fun k => if P k then v k else 0)).sum) := by
  induction l generalizing a with
  | nil => simp
  | cons x xs ih =>
    by_cases hP : P x
    · have hx : ¬ s x ≤ 0 := not_le.mpr (h x (List.mem_cons_self x xs) hP)
      rw [List.foldl_cons, t2step]
      simp only [hP, if_true, hx, if_false]
      rw [ih _ (fun k hk => h k (List.mem_cons_of_mem x hk))]
      simp [hP, add_assoc]
    · rw [List.foldl_cons, t2step]
      simp only [hP, if_false]
      rw [ih _ (fun k hk => h k (List.mem_cons_of_mem x hk))]
      simp [hP]

lemma dimfold_from_none (w : ℕ → Option α) (l : List ℕ) :
    l.foldl (dimStep w) none = none := by
  induction l with
  | nil => rfl
  | cons x xs ih => simpa [List.foldl_cons, dimStep] using ih

lemma dimfold_none_iff (w : ℕ → Option α) (l : List ℕ) (a : α) :
    l.foldl (dimStep w) (some a) = none ↔ ∃ i ∈ l, w i = none := by
  induction l generalizing a with
  | nil => simp
  | cons x xs ih =>
    rcases hw : w x with _ | v
    · simp [List.foldl_cons, dimStep, hw, dimfold_from_none]
    · simp [List.foldl_cons, dimStep, hw, ih]

lemma dimfold_some (w : ℕ → Option α) (v : ℕ → α) (l : List ℕ) (a : α)
    (h : ∀ i ∈ l, w i = some (v i)) :
    l.foldl (dimStep w) (some a) = some (a + (l.map v).sum) := by
  induction l generalizing a with
  | nil => simp
  | cons x xs ih =>
    rw [List.foldl_cons, dimStep, h x (List.mem_cons_self x xs)]
    rw [ih _ (fun i hi => h i (List.mem_cons_of_mem x hi))]
    simp [add_assoc]

/-! Characterisation of loss_dim_i: error condition and value. -/

lemma optionMap_eq_none {β γ : Type} (f : β → γ) (o : Option β) :
    o.map f = none ↔ o = none := by
  cases o <;> simp

lemma loss_dim_iW_none_iff (gf Gf : ℕ → ℕ → ℕ → α) (L : α → α) (H : HData α)
    (c : ℕ → α) (i : ℕ) :
    loss_dim_iW gf Gf L H c i = none ↔
      ∃ k, 1 ≤ k ∧ k ≤ H.M ∧ H.tn k = i + 1 ∧
        c i + ∑ j in Finset.range H.D, ∑ u in Finset.range H.U,
          c (alphaIdx H u i j) * gf u j k ≤ 0 := by
  simp only [loss_dim_iW, optionMap_eq_none, t2fold_none_iff, foldl_nested_add_eq]
  constructor
  · intro ⟨k, hk, hP, hle⟩
    exact ⟨k, (mem_idxList.mp hk).1, (mem_idxList.mp hk).2, hP, hle⟩
  · intro ⟨k, h1, h2, hP, hle⟩
    exact ⟨k, mem_idxList.mpr ⟨h1, h2⟩, hP, hle⟩

lemma loss_dim_iW_pos (gf Gf : ℕ → ℕ → ℕ → α) (L : α → α) (H : HData α)
    (c : ℕ → α) (i : ℕ)
    (hpos : ∀ k, 1 ≤ k → k ≤ H.M → H.tn k = i + 1 →
      0 < c i + ∑ j in Finset.range H.D, ∑ u in Finset.range H.U,
        c (alphaIdx H u i j) * gf u j k) :
    loss_dim_iW gf Gf L H c i
      = some (-H.T -
          ((∑ k in (Finset.Icc 1 H.M).filter (fun k => H.tn k = i + 1),
              L (c (fIdx H i (H.gn (k - 1)))))
           + (∑ k in (Finset.Icc 1 H.M).filter (fun k => H.tn k = i + 1),
              L (c i + ∑ j in Finset.range H.D, ∑ u in Finset.range H.U,
                  c (alphaIdx H u i j) * gf u j k))
           + (-(∑ k in Finset.Icc 1 (H.M + 1),
              c i * (tk H k - H.ts (k - 1)) * c (fIdx H i (H.gn (k - 1)))))
           + (-(∑ j in Finset.range H.D, ∑ u in Finset.range H.U,
              c (alphaIdx H u i j) *
                ∑ k in Finset.Icc 1 (H.M + 1),
                  Gf u j k * c (fIdx H i (H.gn (k - 1))))))) := by
  simp only [loss_dim_iW]
  rw [t2fold_pos _ _ _ _ _ (by
    intro k hk hP
    simp only [foldl_nested_add_eq]
    exact hpos k (mem_idxList.mp hk).1 (mem_idxList.mp hk).2 hP)]
  rw [Option.map_some']
  simp only [foldl_ite_add_eq, foldl_sub_eq, foldl_add_eq, list_range_map_sum,
    sum_G_i_j_u, idxList_map_sum, zero_add]
  congr 1
  have hsplit : ∑ k in Finset.Icc 1 (H.M + 1),
      c i * (tk H k - H.ts (k - 1)) * c (fIdx H i (H.gn (k - 1)))
      = (∑ k in Finset.Icc 1 H.M,
          c i * (H.ts k - H.ts (k - 1)) * c (fIdx H i (H.gn (k - 1))))
        + c i * (H.T - H.ts H.M) * c (fIdx H i (H.gn H.M)) := by
    rw [Finset.sum_Icc_succ_top (by omega)]
    simp only [Nat.add_sub_cancel]
    congr 1
    · exact Finset.sum_congr rfl (fun k hk => by
        have : k ≠ H.M + 1 := by
          have := (Finset.mem_Icc.mp hk).2; omega
        rw [tk, if_neg this])
    · rw [tk, if_pos rfl]
  rw [hsplit]
  have h1 : ∑ k in Finset.Icc 1 H.M,
      (if H.tn k = i + 1 then L (c (fIdx H i (H.gn (k - 1)))) else 0)
      = ∑ k in (Finset.Icc 1 H.M).filter (fun k => H.tn k = i + 1),
          L (c (fIdx H i (H.gn (k - 1)))) := (Finset.sum_filter _ _).symm
  have h2 : ∑ k in Finset.Icc 1 H.M,
      (if H.tn k = i + 1 then
        L (c i + ∑ j in Finset.range H.D, ∑ u in Finset.range H.U,
            c (alphaIdx H u i j) * gf u j k) else 0)
      = ∑ k in (Finset.Icc 1 H.M).filter (fun k => H.tn k = i + 1),
          L (c i + ∑ j in Finset.range H.D, ∑ u in Finset.range H.U,
              c (alphaIdx H u i j) * gf u j k) := (Finset.sum_filter _ _).symm
  rw [h1, h2]
  ring

/-- Claim C3: loss raises the non-positive-intensity DomainError (modelled by
the none result) precisely when some event of some dimension i has
mu_i + sum over j and u of alpha_u_i_j * g(k, j, u) at most 0; when that
bracketed sum is positive at every event of every dimension, loss returns a
value without error. -/
theorem claim_C3_loss_error_iff (E L : α → α) (H : HData α) (c : ℕ → α) :
    loss E L H c = none ↔
      ∃ i, i < H.D ∧ ∃ k, 1 ≤ k ∧ k ≤ H.M ∧ H.tn k = i + 1 ∧
        c i + ∑ j in Finset.range H.D, ∑ u in Finset.range H.U,
          c (alphaIdx H u i j) * g_arr E H u j k ≤ 0 := by
  simp only [loss, lossW, optionMap_eq_none, dimfold_none_iff,
    loss_dim_iW_none_iff, List.mem_range]

/-- Claim C1: for every bound dataset and every admissible coefficient vector
(positive intensity at every event), loss equals the sum over dimensions i of
the per-dimension value -T - (A + B + C + D), where A sums log f_i over events
of dimension i, B sums log of the intensity over events of dimension i, C is
the negated baseline compensator over all intervals including the terminal one
to T, and D is the negated interaction compensator; the total is divided by
Total_events. -/
theorem claim_C1_loss_value (E L : α → α) (H : HData α) (c : ℕ → α)
    (hpos : ∀ i, i < H.D → ∀ k, 1 ≤ k → k ≤ H.M → H.tn k = i + 1 →
      0 < c i + ∑ j in Finset.range H.D, ∑ u in Finset.range H.U,
        c (alphaIdx H u i j) * g_arr E H u j k) :
    loss E L H c = some
      ((∑ i in Finset.range H.D,
        (-H.T -
          ((∑ k in (Finset.Icc 1 H.M).filter (fun k => H.tn k = i + 1),
              L (c (fIdx H i (H.gn (k - 1)))))
           + (∑ k in (Finset.Icc 1 H.M).filter (fun k => H.tn k = i + 1),
              L (c i + ∑ j in Finset.range H.D, ∑ u in Finset.range H.U,
                  c (alphaIdx H u i j) * g_arr E H u j k))
           + (-(∑ k in Finset.Icc 1 (H.M + 1),
              c i * (tk H k - H.ts (k - 1)) * c (fIdx H i (H.gn (k - 1)))))
           + (-(∑ j in Finset.range H.D, ∑ u in Finset.range H.U,
              c (alphaIdx H u i j) *
                ∑ k in Finset.Icc 1 (H.M + 1),
                  G_arr E H u j k * c (fIdx H i (H.gn (k - 1)))))))) / (H.Tot : α)) := by
  have hv : ∀ i ∈ List.range H.D,
      loss_dim_iW (g_arr E H) (G_arr E H) L H c i
        = some ((fun i =>
          (-H.T -
          ((∑ k in (Finset.Icc 1 H.M).filter (fun k => H.tn k = i + 1),
              L (c (fIdx H i (H.gn (k - 1)))))
           + (∑ k in (Finset.Icc 1 H.M).filter (fun k => H.tn k = i + 1),
              L (c i + ∑ j in Finset.range H.D, ∑ u in Finset.range H.U,
                  c (alphaIdx H u i j) * g_arr E H u j k))
           + (-(∑ k in Finset.Icc 1 (H.M + 1),
              c i * (tk H k - H.ts (k - 1)) * c (fIdx H i (H.gn (k - 1)))))
           + (-(∑ j in Finset.range H.D, ∑ u in Finset.range H.U,
              c (alphaIdx H u i j) *
                ∑ k in Finset.Icc 1 (H.M + 1),
                  G_arr E H u j k * c (fIdx H i (H.gn (k - 1)))))))) i) := by
    intro i hi
    exact loss_dim_iW_pos (g_arr E H) (G_arr E H) L H c i
      (fun k h1 h2 hP => hpos i (List.mem_range.mp hi) k h1 h2 hP)
  rw [loss, lossW, dimfold_some _ _ _ _ hv, Option.map_some']
  rw [list_range_map_sum, zero_add]

/-- A constant test stand-in for the external std.exp (it is multiplicative:
E (x + y) = E x * E y). -/
def Efix : ℚ → ℚ := fun _ => 1

/-- A constant test stand-in for the external std.log. -/
def Lfix : ℚ → ℚ := fun _ => 0

/-- A tiny concrete dataset: one modeled dimension, one merged event at t = 1,
horizon T = 2, one kernel with decay 1 and lag 0, state constantly 0. -/
def Hfix : HData ℚ :=
  { D := 1, M := 1, U := 1, S := 1, T := 2,
    ts := fun k => if k = 1 then 1 else 0,
    tn := fun k => if k = 1 then 1 else 0,
    gn := fun _ => 0,
    decays := fun _ => 1,
    lags := fun _ => 0,
    Tot := 1 }

/-- The all-ones coefficient vector. -/
def cfix : ℕ → ℚ := fun _ => 1

/-- Witness for claim C1: the admissibility hypothesis holds at the concrete
dataset Hfix with all-one coefficients, and there the loss evaluates to 0. -/
theorem claim_C1_witness : loss Efix Lfix Hfix cfix = some 0 := by
  have hpos : ∀ i, i < Hfix.D → ∀ k, 1 ≤ k → k ≤ Hfix.M → Hfix.tn k = i + 1 →
      0 < cfix i + ∑ j in Finset.range Hfix.D, ∑ u in Finset.range Hfix.U,
        cfix (alphaIdx Hfix u i j) * g_arr Efix Hfix u j k := by
    intro i hi k h1 h2 hP
    have hD : Hfix.D = 1 := rfl
    have hM : Hfix.M = 1 := rfl
    have hi0 : i = 0 := by omega
    have hk1 : k = 1 := by omega
    subst hi0
    subst hk1
    norm_num [Hfix, cfix, Efix, alphaIdx, g_arr, gG_rec, lagScan, Finset.sum_range_succ]
  refine (claim_C1_loss_value Efix Lfix Hfix cfix hpos).trans ?_
  norm_num [Hfix, cfix, Efix, Lfix, alphaIdx, fIdx, g_arr, G_arr, gG_rec, lagScan, tk,
    Finset.sum_range_succ, Finset.sum_Icc_succ_top, Finset.filter_true_of_mem]

/-! Characterisation of the scan loop: it advances the pointer across exactly
the consecutive indices whose timestamp lies strictly below the delayed gate
tk - lag, accumulating the stated g and G contributions for the tracked
source dimension, and never revisits an index. -/

lemma lagScan_spec (E : α → α) (d l : α) (j M : ℕ) (ts : ℕ → α) (tn : ℕ → ℕ)
    (t : α) :
    ∀ fuel ptr, fuel = M + 1 - ptr → ptr ≤ M + 1 →
      ptr ≤ (lagScan E d l j M ts tn t ptr fuel).2.2 ∧
      (lagScan E d l j M ts tn t ptr fuel).2.2 ≤ M + 1 ∧
      (∀ e, ptr ≤ e → e < (lagScan E d l j M ts tn t ptr fuel).2.2 → ts e < t - l) ∧
      ((lagScan E d l j M ts tn t ptr fuel).2.2 ≤ M →
        ¬ ts (lagScan E d l j M ts tn t ptr fuel).2.2 < t - l) ∧
      (lagScan E d l j M ts tn t ptr fuel).1
        = ∑ e in Finset.Ico ptr (lagScan E d l j M ts tn t ptr fuel).2.2,
            (if tn e = j + 1 then d * E (-(d * (t - l - ts e))) else 0) ∧
      (lagScan E d l j M ts tn t ptr fuel).2.1
        = ∑ e in Finset.Ico ptr (lagScan E d l j M ts tn t ptr fuel).2.2,
            (if tn e = j + 1 then 1 - E (-(d * (t - l - ts e))) else 0) := by
  intro fuel
  induction fuel with
  | zero =>
    intro ptr hfuel hptr
    have hp : ptr = M + 1 := by omega
    simp only [lagScan]
    refine ⟨le_refl _, hptr, ?_, ?_, by simp, by simp⟩
    · intro e h1 h2; omega
    · intro h; exact absurd hp (by omega)
  | succ fuel ih =>
    intro ptr hfuel hptr
    have hptrM : ptr ≤ M := by omega
    rw [lagScan]
    by_cases hcond : ts ptr < t - l
    · by_cases hbreak : M < ptr + 1
      · simp only [if_pos hcond, if_pos hbreak]
        refine ⟨by omega, by omega, ?_, ?_, ?_, ?_⟩
        · intro e h1 h2
          have he : e = ptr := by omega
          rw [he]; exact hcond
        · intro h; exact absurd h (by omega)
        · rw [Nat.Ico_succ_singleton, Finset.sum_singleton]
        · rw [Nat.Ico_succ_singleton, Finset.sum_singleton]
      · have hf : fuel = M + 1 - (ptr + 1) := by omega
        have hp1 : ptr + 1 ≤ M + 1 := by omega
        obtain ⟨c1, c2, c3, c4, c5, c6⟩ := ih (ptr + 1) hf hp1
        simp only [if_pos hcond, if_neg hbreak]
        have hlt : ptr < (lagScan E d l j M ts tn t (ptr + 1) fuel).2.2 := by omega
        refine ⟨by omega, c2, ?_, c4, ?_, ?_⟩
        · intro e he1 he2
          rcases Nat.eq_or_lt_of_le he1 with he | hgt
          · rw [← he]; exact hcond
          · exact c3 e hgt he2
        · rw [Finset.sum_eq_sum_Ico_succ_bot hlt, ← c5]
        · rw [Finset.sum_eq_sum_Ico_succ_bot hlt, ← c6]
    · simp only [if_neg hcond]
      refine ⟨le_refl _, hptr, ?_, fun _ => hcond, by simp, by simp⟩
      intro e h1 h2; omega

/-- On a sorted dataset whose horizon is not before the last event, the step
timestamps tk are nondecreasing in k up to the terminal step. -/
lemma tk_mono (H : HData α)
    (hm : ∀ a b, a ≤ b → b ≤ H.M → H.ts a ≤ H.ts b) (hT : H.ts H.M ≤ H.T)
    {a b : ℕ} (hab : a ≤ b) (hb : b ≤ H.M + 1) : tk H a ≤ tk H b := by
  by_cases ha' : a = H.M + 1
  · have hb' : b = H.M + 1 := by omega
    rw [tk, tk, if_pos ha', if_pos hb']
  · by_cases hb' : b = H.M + 1
    · rw [tk, tk, if_neg ha', if_pos hb']
      exact le_trans (hm a H.M (by omega) (le_refl _)) hT
    · rw [tk, tk, if_neg ha', if_neg hb']
      exact hm a b hab (by omega)

/-- Invariant of the scan pointer across the k-loop: after step k the pointer
has scanned exactly the indices in 1..M whose timestamp lies strictly below
the delayed gate tk k - lag. -/
lemma gG_rec_ptr (E : α → α) (H : HData α) (d l : α) (j : ℕ)
    (hm : ∀ a b, a ≤ b → b ≤ H.M → H.ts a ≤ H.ts b)
    (hT : H.ts H.M ≤ H.T) (hl : 0 ≤ l) :
    ∀ k, k ≤ H.M + 1 →
      1 ≤ (gG_rec E H.M H.T H.ts H.tn d l j k).2.2 ∧
      (gG_rec E H.M H.T H.ts H.tn d l j k).2.2 ≤ H.M + 1 ∧
      ∀ e, 1 ≤ e → e ≤ H.M →
        (e < (gG_rec E H.M H.T H.ts H.tn d l j k).2.2 ↔ H.ts e < tk H k - l) := by
  intro k
  induction k with
  | zero =>
    intro hk
    simp only [gG_rec]
    refine ⟨le_refl _, by omega, ?_⟩
    intro e he1 he2
    constructor
    · intro h; omega
    · intro h
      exfalso
      have h0 : H.ts 0 ≤ H.ts e := hm 0 e (by omega) he2
      have htk : tk H 0 = H.ts 0 := by rw [tk, if_neg (by omega)]
      rw [htk] at h
      linarith
  | succ k ih =>
    intro hk
    obtain ⟨p1, p2, p3⟩ := ih (by omega)
    simp only [gG_rec]
    have htc : (if k + 1 = H.M + 1 then H.T else H.ts (k + 1)) = tk H (k + 1) := rfl
    rw [htc]
    obtain ⟨c1, c2, c3, c4, c5, c6⟩ :=
      lagScan_spec E d l j H.M H.ts H.tn (tk H (k + 1))
        (H.M + 1 - (gG_rec E H.M H.T H.ts H.tn d l j k).2.2)
        (gG_rec E H.M H.T H.ts H.tn d l j k).2.2 rfl p2
    refine ⟨by omega, c2, ?_⟩
    intro e he1 he2
    constructor
    · intro h
      by_cases hep : e < (gG_rec E H.M H.T H.ts H.tn d l j k).2.2
      · have h1 := (p3 e he1 he2).mp hep
        have h2 : tk H k ≤ tk H (k + 1) := tk_mono H hm hT (by omega) hk
        linarith
      · exact c3 e (by omega) h
    · intro h
      by_contra hcon
      push_neg at hcon
      have hs22 : (lagScan E d l j H.M H.ts H.tn (tk H (k + 1))
          (gG_rec E H.M H.T H.ts H.tn d l j k).2.2
          (H.M + 1 - (gG_rec E H.M H.T H.ts H.tn d l j k).2.2)).2.2 ≤ H.M := by
        omega
      have h4 := c4 hs22
      have h5 := hm _ e hcon he2
      exact h4 (by linarith)

/-- The window of indices scanned during step m + 1 consists exactly of the
events whose timestamp has just crossed the strict delayed gate. -/
lemma gG_rec_window (E : α → α) (H : HData α) (d l : α) (j : ℕ)
    (hm : ∀ a b, a ≤ b → b ≤ H.M → H.ts a ≤ H.ts b)
    (hT : H.ts H.M ≤ H.T) (hl : 0 ≤ l) (m : ℕ) (hm1 : m + 1 ≤ H.M + 1) :
    Finset.Ico (gG_rec E H.M H.T H.ts H.tn d l j m).2.2
        (gG_rec E H.M H.T H.ts H.tn d l j (m + 1)).2.2
      = (Finset.Icc 1 H.M).filter (fun e =>
          ¬ H.ts e < tk H m - l ∧ H.ts e < tk H (m + 1) - l) := by
  obtain ⟨pm1, pm2, pm3⟩ := gG_rec_ptr E H d l j hm hT hl m (by omega)
  obtain ⟨q1, q2, q3⟩ := gG_rec_ptr E H d l j hm hT hl (m + 1) hm1
  have hmono : (gG_rec E H.M H.T H.ts H.tn d l j m).2.2
      ≤ (gG_rec E H.M H.T H.ts H.tn d l j (m + 1)).2.2 := by
    have h1 := (lagScan_spec E d l j H.M H.ts H.tn (tk H (m + 1))
      (H.M + 1 - (gG_rec E H.M H.T H.ts H.tn d l j m).2.2)
      (gG_rec E H.M H.T H.ts H.tn d l j m).2.2 rfl pm2).1
    simp only [gG_rec]
    exact h1
  ext e
  simp only [Finset.mem_Ico, Finset.mem_filter, Finset.mem_Icc]
  constructor
  · intro ⟨h1, h2⟩
    have he1 : 1 ≤ e := le_trans pm1 h1
    have he2 : e ≤ H.M := by omega
    refine ⟨⟨he1, he2⟩, ?_, (q3 e he1 he2).mp h2⟩
    intro hch
    exact absurd ((pm3 e he1 he2).mpr hch) (by omega)
  · intro ⟨⟨he1, he2⟩, hg1, hg2⟩
    constructor
    · by_contra hcon
      push_neg at hcon
      exact hg1 ((pm3 e he1 he2).mp hcon)
    · exact (q3 e he1 he2).mpr hg2

/-- Claim C2 (amended): the eligibility gate is strict.  At step k the scan
folds in exactly the events of source dimension j whose timestamp satisfies
ts e < tk k - lag but not ts e < t(k-1) - lag (so an event with
ts e = tk k - lag is NOT included at step k); each such event contributes
decay * E (-decay * (tk k - lag - ts e)) to g and 1 - E (...) to G on top of
the decay-propagated previous values, and no event is ever revisited. -/
theorem claim_C2_amended (E : α → α) (H : HData α) (u j k : ℕ)
    (hm : ∀ a b, a ≤ b → b ≤ H.M → H.ts a ≤ H.ts b)
    (hT : H.ts H.M ≤ H.T) (hl : 0 ≤ H.lags u)
    (hk1 : 1 ≤ k) (hk : k ≤ H.M + 1) :
    g_arr E H u j k
      = g_arr E H u j (k - 1) * E (-(H.decays u * (tk H k - H.ts (k - 1))))
        + ∑ e in (Finset.Icc 1 H.M).filter (fun e =>
            (¬ H.ts e < tk H (k - 1) - H.lags u ∧ H.ts e < tk H k - H.lags u) ∧
              H.tn e = j + 1),
            H.decays u * E (-(H.decays u * (tk H k - H.lags u - H.ts e)))
    ∧ G_arr E H u j k
      = (1 - E (-(H.decays u * (tk H k - H.ts (k - 1))))) / H.decays u
          * g_arr E H u j (k - 1)
        + ∑ e in (Finset.Icc 1 H.M).filter (fun e =>
            (¬ H.ts e < tk H (k - 1) - H.lags u ∧ H.ts e < tk H k - H.lags u) ∧
              H.tn e = j + 1),
            (1 - E (-(H.decays u * (tk H k - H.lags u - H.ts e)))) := by
  obtain ⟨m, rfl⟩ : ∃ m, k = m + 1 := ⟨k - 1, by omega⟩
  obtain ⟨pm1, pm2, pm3⟩ := gG_rec_ptr E H (H.decays u) (H.lags u) j hm hT hl m (by omega)
  obtain ⟨c1, c2, c3, c4, c5, c6⟩ :=
    lagScan_spec E (H.decays u) (H.lags u) j H.M H.ts H.tn (tk H (m + 1))
      (H.M + 1 - (gG_rec E H.M H.T H.ts H.tn (H.decays u) (H.lags u) j m).2.2)
      (gG_rec E H.M H.T H.ts H.tn (H.decays u) (H.lags u) j m).2.2 rfl pm2
  have hwin := gG_rec_window E H (H.decays u) (H.lags u) j hm hT hl m hk
  have hwin2 : Finset.Ico (gG_rec E H.M H.T H.ts H.tn (H.decays u) (H.lags u) j m).2.2
      (lagScan E (H.decays u) (H.lags u) j H.M H.ts H.tn (tk H (m + 1))
        (gG_rec E H.M H.T H.ts H.tn (H.decays u) (H.lags u) j m).2.2
        (H.M + 1 - (gG_rec E H.M H.T H.ts H.tn (H.decays u) (H.lags u) j m).2.2)).2.2
      = (Finset.Icc 1 H.M).filter (fun e =>
          ¬ H.ts e < tk H m - H.lags u ∧ H.ts e < tk H (m + 1) - H.lags u) := by
    rw [← hwin]
    rfl
  rw [hwin2] at c5 c6
  have hsum1 : ∑ e in (Finset.Icc 1 H.M).filter (fun e =>
        ¬ H.ts e < tk H m - H.lags u ∧ H.ts e < tk H (m + 1) - H.lags u),
        (if H.tn e = j + 1 then
          H.decays u * E (-(H.decays u * (tk H (m + 1) - H.lags u - H.ts e))) else 0)
      = ∑ e in (Finset.Icc 1 H.M).filter (fun e =>
          (¬ H.ts e < tk H m - H.lags u ∧ H.ts e < tk H (m + 1) - H.lags u) ∧
            H.tn e = j + 1),
          H.decays u * E (-(H.decays u * (tk H (m + 1) - H.lags u - H.ts e))) := by
    rw [← Finset.sum_filter, Finset.filter_filter]
  have hsum2 : ∑ e in (Finset.Icc 1 H.M).filter (fun e =>
        ¬ H.ts e < tk H m - H.lags u ∧ H.ts e < tk H (m + 1) - H.lags u),
        (if H.tn e = j + 1 then
          1 - E (-(H.decays u * (tk H (m + 1) - H.lags u - H.ts e))) else 0)
      = ∑ e in (Finset.Icc 1 H.M).filter (fun e =>
          (¬ H.ts e < tk H m - H.lags u ∧ H.ts e < tk H (m + 1) - H.lags u) ∧
            H.tn e = j + 1),
          (1 - E (-(H.decays u * (tk H (m + 1) - H.lags u - H.ts e)))) := by
    rw [← Finset.sum_filter, Finset.filter_filter]
  have htc : (if m + 1 = H.M + 1 then H.T else H.ts (m + 1)) = tk H (m + 1) := rfl
  constructor
  · show (gG_rec E H.M H.T H.ts H.tn (H.decays u) (H.lags u) j (m + 1)).1 = _
    rw [gG_rec]
    simp only [Nat.add_sub_cancel]
    rw [htc, c5, hsum1]
    rfl
  · show (gG_rec E H.M H.T H.ts H.tn (H.decays u) (H.lags u) j (m + 1)).2.1 = _
    rw [gG_rec]
    simp only [Nat.add_sub_cancel]
    rw [htc, c6, hsum2]
    rfl

/-- Closed form of the recursive g on the scanned prefix: after step k it is
the sum of the decayed contributions of every scanned event of source j. -/
lemma g_closed_Ico (E : α → α) (H : HData α) (d l : α) (j : ℕ)
    (hm : ∀ a b, a ≤ b → b ≤ H.M → H.ts a ≤ H.ts b)
    (hT : H.ts H.M ≤ H.T) (hl : 0 ≤ l)
    (hE : ∀ x y : α, E (x + y) = E x * E y) :
    ∀ k, k ≤ H.M + 1 →
      (gG_rec E H.M H.T H.ts H.tn d l j k).1
        = ∑ e in Finset.Ico 1 (gG_rec E H.M H.T H.ts H.tn d l j k).2.2,
            (if H.tn e = j + 1 then d * E (-(d * (tk H k - l - H.ts e))) else 0) := by
  intro k
  induction k with
  | zero =>
    intro hk
    simp [gG_rec]
  | succ m ih =>
    intro hk
    obtain ⟨pm1, pm2, pm3⟩ := gG_rec_ptr E H d l j hm hT hl m (by omega)
    obtain ⟨c1, c2, c3, c4, c5, c6⟩ :=
      lagScan_spec E d l j H.M H.ts H.tn (tk H (m + 1))
        (H.M + 1 - (gG_rec E H.M H.T H.ts H.tn d l j m).2.2)
        (gG_rec E H.M H.T H.ts H.tn d l j m).2.2 rfl pm2
    have hunfold1 : (gG_rec E H.M H.T H.ts H.tn d l j (m + 1)).1
        = (gG_rec E H.M H.T H.ts H.tn d l j m).1 * E (-(d * (tk H (m + 1) - H.ts m)))
          + (lagScan E d l j H.M H.ts H.tn (tk H (m + 1))
              (gG_rec E H.M H.T H.ts H.tn d l j m).2.2
              (H.M + 1 - (gG_rec E H.M H.T H.ts H.tn d l j m).2.2)).1 := rfl
    have hunfold2 : (gG_rec E H.M H.T H.ts H.tn d l j (m + 1)).2.2
        = (lagScan E d l j H.M H.ts H.tn (tk H (m + 1))
            (gG_rec E H.M H.T H.ts H.tn d l j m).2.2
            (H.M + 1 - (gG_rec E H.M H.T H.ts H.tn d l j m).2.2)).2.2 := rfl
    rw [hunfold1, hunfold2, c5, ih (by omega), Finset.sum_mul]
    have hterm : ∀ e ∈ Finset.Ico 1 (gG_rec E H.M H.T H.ts H.tn d l j m).2.2,
        (if H.tn e = j + 1 then d * E (-(d * (tk H m - l - H.ts e))) else 0)
            * E (-(d * (tk H (m + 1) - H.ts m)))
          = (if H.tn e = j + 1 then
              d * E (-(d * (tk H (m + 1) - l - H.ts e))) else 0) := by
      intro e he
      by_cases h : H.tn e = j + 1
      · rw [if_pos h, if_pos h, mul_assoc, ← hE]
        have hts : tk H m = H.ts m := by rw [tk, if_neg (by omega)]
        congr 2
        rw [hts]
        ring
      · rw [if_neg h, if_neg h, zero_mul]
    rw [Finset.sum_congr rfl hterm]
    exact Finset.sum_Ico_consecutive _ pm1 c1

/-- Closed form of the recursive g: after step k it is the delayed decayed sum
over all events of source j whose timestamp lies strictly below the gate. -/
lemma g_closed (E : α → α) (H : HData α) (d l : α) (j : ℕ)
    (hm : ∀ a b, a ≤ b → b ≤ H.M → H.ts a ≤ H.ts b)
    (hT : H.ts H.M ≤ H.T) (hl : 0 ≤ l)
    (hE : ∀ x y : α, E (x + y) = E x * E y) (k : ℕ) (hk : k ≤ H.M + 1) :
    (gG_rec E H.M H.T H.ts H.tn d l j k).1
      = ∑ e in (Finset.Icc 1 H.M).filter
          (fun e => H.ts e < tk H k - l ∧ H.tn e = j + 1),
          d * E (-(d * (tk H k - l - H.ts e))) := by
  obtain ⟨p1, p2, p3⟩ := gG_rec_ptr E H d l j hm hT hl k hk
  rw [g_closed_Ico E H d l j hm hT hl hE k hk, Finset.sum_filter,
    show Finset.Icc 1 H.M = Finset.Ico 1 (H.M + 1) from (Nat.Ico_succ_right 1 H.M).symm]
  have hcongr : ∀ e ∈ Finset.Ico 1 (gG_rec E H.M H.T H.ts H.tn d l j k).2.2,
      (if H.tn e = j + 1 then d * E (-(d * (tk H k - l - H.ts e))) else 0)
        = (if H.ts e < tk H k - l ∧ H.tn e = j + 1 then
            d * E (-(d * (tk H k - l - H.ts e))) else 0) := by
    intro e he
    rw [Finset.mem_Ico] at he
    have hgate : H.ts e < tk H k - l := (p3 e he.1 (by omega)).mp he.2
    by_cases h : H.tn e = j + 1
    · rw [if_pos h, if_pos ⟨hgate, h⟩]
    · rw [if_neg h, if_neg (by tauto)]
  rw [Finset.sum_congr rfl hcongr]
  apply Finset.sum_subset
  · intro e he
    rw [Finset.mem_Ico] at he ⊢
    omega
  · intro e he hne
    rw [Finset.mem_Ico] at he hne
    rw [if_neg]
    intro ⟨hg, _⟩
    exact absurd ((p3 e he.1 (by omega)).mpr hg) (by omega)

/-- The brute-force pairwise convolution from the spec: the sum of
decay * exp (-decay * (t_k - t_e)) over all strictly earlier events t_e of
source dimension j, stated for the merged event k. -/
def gBruteForce (E : α → α) (H : HData α) (d : α) (j k : ℕ) : α :=
  ∑ e in (Finset.Icc 1 H.M).filter
      (fun e => H.ts e < H.ts k ∧ H.tn e = j + 1),
      d * E (-(d * (H.ts k - H.ts e)))

/-- Claim C5: for a single-kernel model (U = 1) with lag 0, on any sorted
event sequence the recursively maintained convolution g at each merged event
k equals the direct O(n squared) brute-force sum over all strictly earlier
events of source dimension j, for a multiplicative exponential map E. -/
theorem claim_C5_recursive_eq_bruteforce (E : α → α) (H : HData α) (j k : ℕ)
    (hU : H.U = 1) (hlag : H.lags 0 = 0)
    (hm : ∀ a b, a ≤ b → b ≤ H.M → H.ts a ≤ H.ts b)
    (hT : H.ts H.M ≤ H.T)
    (hE : ∀ x y : α, E (x + y) = E x * E y)
    (hk1 : 1 ≤ k) (hk : k ≤ H.M) :
    g_arr E H 0 j k = gBruteForce E H (H.decays 0) j k := by
  rw [g_arr, hlag,
    g_closed E H (H.decays 0) 0 j hm hT (le_refl 0) hE k (by omega), gBruteForce]
  have htk : tk H k = H.ts k := by rw [tk, if_neg (by omega)]
  rw [htk]
  simp [sub_zero]

/-! The gradient evaluator (source lines 225-340). -/

/-- The intensity denominator of grad_dim_i (source lines 256-261 and
281-286), accumulated by the same nested loops as the loss term-2 bracket. -/
def denomW (gf : ℕ → ℕ → ℕ → α) (H : HData α) (c : ℕ → α) (i k : ℕ) : α :=
  (List.range H.D).foldl (fun s j =>
    (List.range H.U).foldl (fun s u => s + c (alphaIdx H u i j) * gf u j k) s) (c i)

/-- The gradient of mu_i (source lines 246-269).  The first loop runs
k = 1..M (source line 248 bounds k by n_total_jumps + 1 exclusively), and its
k = M + 1 test (source line 250) is kept in the embedding although that branch
is unreachable; the second loop subtracts the baseline-compensator derivative
over all intervals including the terminal one. -/
def grad_mu_iW (gf : ℕ → ℕ → ℕ → α) (H : HData α) (c : ℕ → α) (i : ℕ) : α :=
  let a1 := (idxList 1 H.M).foldl (fun a k =>
    if k = H.M + 1 ∨ H.tn k = i + 1 then a + 1 / denomW gf H c i k else a) 0
  (idxList 1 (H.M + 1)).foldl (fun a k =>
    a - (tk H k - H.ts (k - 1)) * c (fIdx H i (H.gn (k - 1)))) a1

/-- The gradient of alpha_u_i_j (source lines 271-303): g/denominator summed
over the events of dimension i and the terminal step (this loop does reach
k = M + 1), minus the G-compensator sum. -/
def grad_alpha_u_ijW (gf Gf : ℕ → ℕ → ℕ → α) (H : HData α) (c : ℕ → α)
    (u i j : ℕ) : α :=
  let a1 := (idxList 1 (H.M + 1)).foldl (fun a k =>
    if k = H.M + 1 ∨ H.tn k = i + 1 then a + gf u j k / denomW gf H c i k else a) 0
  a1 - sum_G_i_j_u Gf H (fun n => c (fIdx H i n)) j u

/-- H1 (source lines 93, 96-99): a single decrement at the state of the final
event, then an increment at n[k-1] for every event of dimension i.  Every
thread computes an identical copy per dimension; the array is modelled as a
function of the state. -/
def H1_arr (H : HData α) (i : ℕ) : ℕ → α :=
  let h0 : ℕ → α :=
    Function.update (fun _ => (0 : α)) (H.gn H.M) ((fun _ => (0 : α)) (H.gn H.M) - 1)
  (idxList 1 (H.M + 1)).foldl (fun h k =>
    if k = H.M + 1 then h
    else Function.update h (H.gn (k - 1))
      (h (H.gn (k - 1)) + if H.tn k = i + 1 then 1 else 0)) h0

/-- H2 (source lines 100-101): minus the elapsed interval length per state,
over all intervals including the terminal one (identical for every i). -/
def H2_arr (H : HData α) : ℕ → α :=
  (idxList 1 (H.M + 1)).foldl (fun h k =>
    Function.update h (H.gn (k - 1)) (h (H.gn (k - 1)) - (tk H k - H.ts (k - 1))))
    (fun _ => 0)

/-- H3 for dimension i (source lines 104-110): per state and kernel, minus the
G integral of dimension i's own source column, flattened at index n * U + u. -/
def H3_arrW (Gf : ℕ → ℕ → ℕ → α) (H : HData α) (i : ℕ) : ℕ → α :=
  (List.range H.U).foldl (fun h u =>
    (idxList 1 (H.M + 1)).foldl (fun h k =>
      Function.update h (H.gn (k - 1) * H.U + u)
        (h (H.gn (k - 1) * H.U + u) - Gf u i k)) h) (fun _ => 0)

/-- The gradient of f_i[n] (source lines 305-319), reading the cached
sufficient statistics h1f i, h2f i and h3f j. -/
def grad_f_inW (h1f h2f h3f : ℕ → ℕ → α) (H : HData α) (c : ℕ → α)
    (i n : ℕ) : α :=
  let rdot := (List.range H.D).foldl (fun a j =>
    (List.range H.U).foldl (fun a u =>
      a + c (alphaIdx H u i j) * h3f j (n * H.U + u)) a) 0
  h1f i n / c (fIdx H i n) + c i * h2f i n + rdot

/-- One grad_dim_i pass (source lines 225-322) acting on the shared output
vector: it writes grad_mu_i at index i, accumulates the alpha gradients into
their offsets, and writes the f gradients into theirs. -/
def grad_dim_i_updW (gf Gf : ℕ → ℕ → ℕ → α) (h1f h2f h3f : ℕ → ℕ → α)
    (H : HData α) (c : ℕ → α) (i : ℕ) (out : ℕ → α) : ℕ → α :=
  let out1 := Function.update out i (grad_mu_iW gf H c i)
  let out2 := (List.range H.D).foldl (fun o j =>
    (List.range H.U).foldl (fun o u =>
      Function.update o (alphaIdx H u i j)
        (o (alphaIdx H u i j) + grad_alpha_u_ijW gf Gf H c u i j)) o) out1
  (List.range H.S).foldl (fun o n =>
    Function.update o (fIdx H i n) (grad_f_inW h1f h2f h3f H c i n)) out2

/-- The shared output vector after the per-dimension passes of grad, before
the division by Total_events and the negation (source lines 327-335). -/
def gradRawW (gf Gf : ℕ → ℕ → ℕ → α) (h1f h2f h3f : ℕ → ℕ → α)
    (H : HData α) (c : ℕ → α) : ℕ → α :=
  (List.range H.D).foldl
    (fun o i => grad_dim_i_updW gf Gf h1f h2f h3f H c i o) (fun _ => 0)

/-- grad (source lines 324-340): zero-fill, per-dimension passes over disjoint
slices, then division by Total_events and negation of every entry.  No
intensity check occurs anywhere on this path. -/
def gradW (gf Gf : ℕ → ℕ → ℕ → α) (h1f h2f h3f : ℕ → ℕ → α)
    (H : HData α) (c : ℕ → α) : ℕ → α :=
  fun idx => -(gradRawW gf Gf h1f h2f h3f H c idx / (H.Tot : α))

/-- grad_mu_i with the weight cache as compute_weights fills it. -/
def grad_mu_i (E : α → α) (H : HData α) (c : ℕ → α) (i : ℕ) : α :=
  grad_mu_iW (g_arr E H) H c i

/-- The raw shared output of grad with the weight cache as compute_weights
fills it. -/
def gradRaw (E : α → α) (H : HData α) (c : ℕ → α) : ℕ → α :=
  gradRawW (g_arr E H) (G_arr E H) (fun i => H1_arr H i) (fun _ => H2_arr H)
    (fun j => H3_arrW (G_arr E H) H j) H c

/-- grad with the weight cache as compute_weights fills it. -/
def grad (E : α → α) (H : HData α) (c : ℕ → α) : ℕ → α :=
  gradW (g_arr E H) (G_arr E H) (fun i => H1_arr H i) (fun _ => H2_arr H)
    (fun j => H3_arrW (G_arr E H) H j) H c

/-! Disjointness of the parameter-vector slices, and access into the raw
gradient vector. -/

lemma alphaIdx_lt (H : HData α) {u i j : ℕ} (hu : u < H.U) (hi : i < H.D)
    (hj : j < H.D) : alphaIdx H u i j < H.D + H.D * H.D * H.U := by
  rw [alphaIdx]
  have h1 : (u + 1) * (H.D * H.D) ≤ H.U * (H.D * H.D) :=
    Nat.mul_le_mul_right _ hu
  have h2 : (i + 1) * H.D ≤ H.D * H.D := Nat.mul_le_mul_right _ hi
  nlinarith

lemma D_le_alphaIdx (H : HData α) (u i j : ℕ) : H.D ≤ alphaIdx H u i j := by
  rw [alphaIdx]
  exact le_trans (Nat.le_add_right _ _)
    (le_trans (Nat.le_add_right _ _) (Nat.le_add_right _ _))

lemma le_fIdx (H : HData α) (i n : ℕ) : H.D + H.D * H.D * H.U ≤ fIdx H i n := by
  rw [fIdx]
  exact le_trans (Nat.le_add_right _ _) (Nat.le_add_right _ _)

lemma D_le_fIdx (H : HData α) (i n : ℕ) : H.D ≤ fIdx H i n :=
  le_trans (Nat.le_add_right _ _) (le_fIdx H i n)

lemma fIdx_inj (H : HData α) {i n i' n' : ℕ} (hn : n < H.S) (hn' : n' < H.S)
    (h : fIdx H i n = fIdx H i' n') : i = i' ∧ n = n' := by
  rw [fIdx, fIdx] at h
  simp only [Nat.add_assoc] at h
  have h2 := Nat.add_left_cancel (Nat.add_left_cancel h)
  rw [Nat.mul_comm i H.S, Nat.mul_comm i' H.S] at h2
  have hS : 0 < H.S := by omega
  have e1 : (H.S * i + n) / H.S = i := by
    rw [Nat.mul_add_div hS, Nat.div_eq_of_lt hn, Nat.add_zero]
  have e2 : (H.S * i' + n') / H.S = i' := by
    rw [Nat.mul_add_div hS, Nat.div_eq_of_lt hn', Nat.add_zero]
  have hii : i = i' := by rw [← e1, ← e2, h2]
  refine ⟨hii, ?_⟩
  rw [hii] at h2
  exact Nat.add_left_cancel h2

lemma foldl_preserve {β : Type} (l : List β) (step : (ℕ → α) → β → (ℕ → α))
    (x : ℕ) (h : ∀ o b, b ∈ l → step o b x = o x) :
    ∀ o : ℕ → α, (l.foldl step o) x = o x := by
  induction l with
  | nil => intro o; rfl
  | cons y ys ih =>
    intro o
    rw [List.foldl_cons, ih (fun o b hb => h o b (List.mem_cons_of_mem y hb))]
    exact h o y (List.mem_cons_self y ys)

lemma foldl_write_once {β : Type} (l : List β) (step : (ℕ → α) → β → (ℕ → α))
    (x : ℕ) (b0 : β) (v : α) (hb0 : b0 ∈ l) (hput : ∀ o, step o b0 x = v)
    (hpres : ∀ o b, b ∈ l → b ≠ b0 → step o b x = o x) :
    ∀ o : ℕ → α, (l.foldl step o) x = v := by
  induction l with
  | nil => cases hb0
  | cons y ys ih =>
    intro o
    by_cases hmem : b0 ∈ ys
    · exact ih hmem (fun o b hb hne => hpres o b (List.mem_cons_of_mem y hb) hne) _
    · have hy : y = b0 := by
        rcases List.mem_cons.mp hb0 with h | h
        · exact h.symm
        · exact absurd h hmem
      subst hy
      rw [List.foldl_cons, foldl_preserve ys step x
        (fun o b hb => hpres o b (List.mem_cons_of_mem _ hb) (fun he => hmem (he ▸ hb)))]
      exact hput o

lemma foldl_update_const_at (l : List ℕ) (key : ℕ → ℕ) (val : ℕ → α) (n : ℕ)
    (hn : n ∈ l) (hinj : ∀ m ∈ l, key m = key n → m = n) :
    ∀ o : ℕ → α,
      (l.foldl (fun o m => Function.update o (key m) (val m)) o) (key n) = val n := by
  induction l with
  | nil => cases hn
  | cons y ys ih =>
    intro o
    rw [List.foldl_cons]
    by_cases hmem : n ∈ ys
    · exact ih hmem (fun m hm hk => hinj m (List.mem_cons_of_mem y hm) hk) _
    · have hy : y = n := by
        rcases List.mem_cons.mp hn with h | h
        · exact h.symm
        · exact absurd h hmem
      subst hy
      rw [foldl_preserve ys _ (key y) (fun o m hm =>
        Function.update_noteq (fun he =>
          hmem ((hinj m (List.mem_cons_of_mem y hm) he.symm) ▸ hm)) _ _)]
      exact Function.update_same _ _ _

lemma denomW_eq (gf : ℕ → ℕ → ℕ → α) (H : HData α) (c : ℕ → α) (i k : ℕ) :
    denomW gf H c i k
      = c i + ∑ j in Finset.range H.D, ∑ u in Finset.range H.U,
          c (alphaIdx H u i j) * gf u j k := by
  rw [denomW, foldl_nested_add_eq]

/-- The unreachable k = M + 1 test aside, the event loop of grad_mu_i sums
1/denominator over the events of dimension i; the second loop subtracts the
baseline-compensator derivative over all intervals. -/
lemma grad_mu_iW_eq (gf : ℕ → ℕ → ℕ → α) (H : HData α) (c : ℕ → α) (i : ℕ) :
    grad_mu_iW gf H c i
      = (∑ k in (Finset.Icc 1 H.M).filter (fun k => H.tn k = i + 1),
          1 / (c i + ∑ j in Finset.range H.D, ∑ u in Finset.range H.U,
            c (alphaIdx H u i j) * gf u j k))
        - ∑ k in Finset.Icc 1 (H.M + 1),
            (tk H k - H.ts (k - 1)) * c (fIdx H i (H.gn (k - 1))) := by
  rw [grad_mu_iW]
  rw [foldl_sub_eq, foldl_ite_add_eq, idxList_map_sum, idxList_map_sum, zero_add]
  congr 1
  rw [← Finset.sum_filter]
  have hflt : (Finset.Icc 1 H.M).filter (fun k => k = H.M + 1 ∨ H.tn k = i + 1)
      = (Finset.Icc 1 H.M).filter (fun k => H.tn k = i + 1) := by
    apply Finset.filter_congr
    intro k hk
    have := Finset.mem_Icc.mp hk
    constructor
    · intro h
      rcases h with h | h
      · omega
      · exact h
    · intro h
      exact Or.inr h
  rw [hflt]
  exact Finset.sum_congr rfl (fun k _ => by rw [denomW_eq])

/-- After the pass of dimension i, an index that is neither an alpha offset
nor an f offset of that dimension holds the mu entry (when the index is i)
or its previous value. -/
lemma grad_dim_i_updW_at (gf Gf : ℕ → ℕ → ℕ → α) (h1f h2f h3f : ℕ → ℕ → α)
    (H : HData α) (c : ℕ → α) (i : ℕ) (x : ℕ)
    (hxa : ∀ u j, u < H.U → j < H.D → x ≠ alphaIdx H u i j)
    (hxf : ∀ n, n < H.S → x ≠ fIdx H i n) (out : ℕ → α) :
    grad_dim_i_updW gf Gf h1f h2f h3f H c i out x
      = Function.update out i (grad_mu_iW gf H c i) x := by
  rw [grad_dim_i_updW]
  rw [foldl_preserve (List.range H.S) _ x (fun o n hn =>
    Function.update_noteq (hxf n (List.mem_range.mp hn)) _ _)]
  rw [foldl_preserve (List.range H.D) _ x (fun o j hj =>
    foldl_preserve (List.range H.U) _ x (fun o' u hu =>
      Function.update_noteq
        (hxa u j (List.mem_range.mp hu) (List.mem_range.mp hj)) _ _) o)]

/-- The raw gradient vector holds grad_mu_i at index i. -/
lemma gradRawW_at_mu (gf Gf : ℕ → ℕ → ℕ → α) (h1f h2f h3f : ℕ → ℕ → α)
    (H : HData α) (c : ℕ → α) (i : ℕ) (hi : i < H.D) :
    gradRawW gf Gf h1f h2f h3f H c i = grad_mu_iW gf H c i := by
  rw [gradRawW]
  refine foldl_write_once (List.range H.D) _ i i (grad_mu_iW gf H c i)
    (List.mem_range.mpr hi) ?_ ?_ _
  · intro o
    rw [grad_dim_i_updW_at _ _ _ _ _ _ _ _ _
      (fun u j hu hj => Nat.ne_of_lt (lt_of_lt_of_le hi (D_le_alphaIdx H u i j)))
      (fun n hn => Nat.ne_of_lt (lt_of_lt_of_le hi (D_le_fIdx H i n)))]
    rw [Function.update_same]
  · intro o b hb hne
    rw [grad_dim_i_updW_at _ _ _ _ _ _ _ _ _
      (fun u j hu hj => Nat.ne_of_lt (lt_of_lt_of_le hi (D_le_alphaIdx H u b j)))
      (fun n hn => Nat.ne_of_lt (lt_of_lt_of_le hi (D_le_fIdx H b n)))]
    exact Function.update_noteq (fun he => hne he.symm) _ _

/-- The raw gradient vector holds grad_f_i[n] at index fIdx i n. -/
lemma gradRawW_at_f (gf Gf : ℕ → ℕ → ℕ → α) (h1f h2f h3f : ℕ → ℕ → α)
    (H : HData α) (c : ℕ → α) (i n : ℕ) (hi : i < H.D) (hn : n < H.S) :
    gradRawW gf Gf h1f h2f h3f H c (fIdx H i n)
      = grad_f_inW h1f h2f h3f H c i n := by
  rw [gradRawW]
  refine foldl_write_once (List.range H.D) _ (fIdx H i n) i
    (grad_f_inW h1f h2f h3f H c i n) (List.mem_range.mpr hi) ?_ ?_ _
  · intro o
    rw [grad_dim_i_updW]
    refine foldl_update_const_at (List.range H.S) (fIdx H i) _ n
      (List.mem_range.mpr hn) ?_ _
    intro m hm hkey
    exact (fIdx_inj H (List.mem_range.mp hm) hn hkey).2
  · intro o b hb hne
    rw [grad_dim_i_updW_at _ _ _ _ _ _ _ _ _ ?ha ?hf]
    case ha =>
      intro u j hu hj heq
      have h1 := alphaIdx_lt H hu (List.mem_range.mp hb) hj
      have h2 := le_fIdx H i n
      omega
    case hf =>
      intro m hm heq
      exact hne ((fIdx_inj H hn hm heq).1).symm
    exact Function.update_noteq
      (fun he => absurd (he ▸ D_le_fIdx H i n) (by push_neg; exact List.mem_range.mp hb)) _ _

/-- Claim C4 (amended): grad performs no intensity-positivity check.  Even for
a coefficient vector producing a negative intensity at some event of dimension
i, grad writes a gradient and returns normally; its entry for mu_i is the
closed form whose event terms divide by that (negative) denominator. -/
theorem claim_C4_amended (E : α → α) (H : HData α) (c : ℕ → α) (i : ℕ)
    (hi : i < H.D)
    (hneg : ∃ k, 1 ≤ k ∧ k ≤ H.M ∧ H.tn k = i + 1 ∧
      c i + ∑ j in Finset.range H.D, ∑ u in Finset.range H.U,
        c (alphaIdx H u i j) * g_arr E H u j k < 0) :
    grad E H c i
      = -(((∑ k in (Finset.Icc 1 H.M).filter (fun k => H.tn k = i + 1),
            1 / (c i + ∑ j in Finset.range H.D, ∑ u in Finset.range H.U,
              c (alphaIdx H u i j) * g_arr E H u j k))
          - ∑ k in Finset.Icc 1 (H.M + 1),
              (tk H k - H.ts (k - 1)) * c (fIdx H i (H.gn (k - 1))))
          / (H.Tot : α)) := by
  simp only [grad, gradW]
  rw [gradRawW_at_mu _ _ _ _ _ _ _ _ hi, grad_mu_iW_eq]

/-- Coefficients with a negative baseline: mu_0 = -1, all other entries 1. -/
def cneg : ℕ → ℚ := fun n => if n = 0 then -1 else 1

/-- Counterexample to claim C4 as stated: at the dataset Hfix with
coefficients cneg, the intensity at the (only) event of dimension 0 is
negative, yet grad does not raise any error: it writes a gradient and
returns, with the entry for mu_0 equal to 3. -/
theorem claim_C4_counterexample :
    (cneg 0 + ∑ j in Finset.range Hfix.D, ∑ u in Finset.range Hfix.U,
      cneg (alphaIdx Hfix u 0 j) * g_arr Efix Hfix u j 1 < 0)
    ∧ Hfix.tn 1 = 0 + 1
    ∧ grad Efix Hfix cneg 0 = 3 := by
  refine ⟨?_, rfl, ?_⟩
  · norm_num [Hfix, cneg, Efix, alphaIdx, g_arr, gG_rec, lagScan,
      Finset.sum_range_succ]
  · have h0 : (0 : ℕ) < Hfix.D := by norm_num [Hfix]
    simp only [grad, gradW]
    rw [gradRawW_at_mu _ _ _ _ _ _ _ _ h0]
    norm_num [grad_mu_iW, denomW, idxList, Hfix, cneg, Efix, alphaIdx, fIdx,
      g_arr, gG_rec, lagScan, tk, List.range_succ]

/-- Claim C6 (code bug): the event loop of the mu_i gradient stops at k = M
(its k = M + 1 branch is dead), so the terminal step contributes no
1/denominator term.  At the dataset Hfix with all-one coefficients the code
computes -1, while the claimed formula, which includes the terminal step,
gives -1/2. -/
theorem claim_C6_terminal_step_missing :
    grad_mu_i Efix Hfix cfix 0 = -1
    ∧ (∑ k in (Finset.Icc 1 Hfix.M).filter (fun k => Hfix.tn k = 0 + 1),
        1 / (cfix 0 + ∑ j in Finset.range Hfix.D, ∑ u in Finset.range Hfix.U,
          cfix (alphaIdx Hfix u 0 j) * g_arr Efix Hfix u j k))
      + 1 / (cfix 0 + ∑ j in Finset.range Hfix.D, ∑ u in Finset.range Hfix.U,
          cfix (alphaIdx Hfix u 0 j) * g_arr Efix Hfix u j (Hfix.M + 1))
      - (∑ k in Finset.Icc 1 (Hfix.M + 1),
          (tk Hfix k - Hfix.ts (k - 1)) * cfix (fIdx Hfix 0 (Hfix.gn (k - 1))))
      = -(1/2)
    ∧ (-1 : ℚ) ≠ -(1/2) := by
  refine ⟨?_, ?_, by norm_num⟩
  · norm_num [grad_mu_i, grad_mu_iW, denomW, idxList, Hfix, cfix, Efix,
      alphaIdx, fIdx, g_arr, gG_rec, lagScan, tk, List.range_succ]
  · norm_num [Hfix, cfix, Efix, alphaIdx, fIdx, g_arr, gG_rec, lagScan, tk,
      Finset.sum_range_succ, Finset.sum_Icc_succ_top, Finset.Icc_self,
      Finset.sum_filter, Finset.sum_singleton]

/-! Closed forms of the sufficient statistics H1, H2 and H3. -/

lemma foldl_update_add_at (l : List ℕ) (key : ℕ → ℕ) (v : ℕ → α) (n : ℕ) :
    ∀ h0 : ℕ → α,
      (l.foldl (fun h k => Function.update h (key k) (h (key k) + v k)) h0) n
        = h0 n + (l.map (fun k => if key k = n then v k else 0)).sum := by
  induction l with
  | nil => intro h0; simp
  | cons x xs ih =>
    intro h0
    rw [List.foldl_cons, ih, List.map_cons, List.sum_cons]
    by_cases hk : key x = n
    · rw [if_pos hk, ← hk, Function.update_same, hk]
      ring
    · rw [if_neg hk, Function.update_noteq (fun he => hk he.symm)]
      ring

lemma foldl_update_sub_at (l : List ℕ) (key : ℕ → ℕ) (v : ℕ → α) (n : ℕ) :
    ∀ h0 : ℕ → α,
      (l.foldl (fun h k => Function.update h (key k) (h (key k) - v k)) h0) n
        = h0 n - (l.map (fun k => if key k = n then v k else 0)).sum := by
  induction l with
  | nil => intro h0; simp
  | cons x xs ih =>
    intro h0
    rw [List.foldl_cons, ih, List.map_cons, List.sum_cons]
    by_cases hk : key x = n
    · rw [if_pos hk, ← hk, Function.update_same, hk]
      ring
    · rw [if_neg hk, Function.update_noteq (fun he => hk he.symm)]
      ring

lemma foldl_modify_once {β : Type} (step : (ℕ → α) → β → (ℕ → α))
    (x : ℕ) (b0 : β) (v : α → α)
    (hmod : ∀ o, step o b0 x = v (o x)) :
    ∀ l : List β, b0 ∈ l → l.Nodup →
      (∀ o b, b ∈ l → b ≠ b0 → step o b x = o x) →
      ∀ o : ℕ → α, (l.foldl step o) x = v (o x) := by
  intro l
  induction l with
  | nil => intro hb0; cases hb0
  | cons y ys ih =>
    intro hb0 hnd hpres o
    rw [List.foldl_cons]
    by_cases hy : y = b0
    · subst hy
      have hmem : y ∉ ys := (List.nodup_cons.mp hnd).1
      rw [foldl_preserve ys step x (fun o b hb =>
        hpres o b (List.mem_cons_of_mem _ hb) (fun he => hmem (he ▸ hb)))]
      exact hmod o
    · have hb0' : b0 ∈ ys := by
        rcases List.mem_cons.mp hb0 with h | h
        · exact absurd h.symm hy
        · exact h
      rw [ih hb0' (List.nodup_cons.mp hnd).2
        (fun o b hb hne => hpres o b (List.mem_cons_of_mem _ hb) hne) _]
      rw [hpres o y (List.mem_cons_self _ _) hy]

/-- Closed form of H1: minus one at the final event's state, plus one per
event of dimension i at the state in force when it occurred. -/
lemma H1_arr_eq (H : HData α) (i n : ℕ) :
    H1_arr H i n
      = (if H.gn H.M = n then (-1 : α) else 0)
        + ∑ k in (Finset.Icc 1 H.M).filter
            (fun k => H.gn (k - 1) = n ∧ H.tn k = i + 1), (1 : α) := by
  rw [H1_arr]
  have hstep : (fun (h : ℕ → α) k =>
      if k = H.M + 1 then h
      else Function.update h (H.gn (k - 1))
        (h (H.gn (k - 1)) + if H.tn k = i + 1 then 1 else 0))
      = fun (h : ℕ → α) k => Function.update h (H.gn (k - 1))
          (h (H.gn (k - 1)) + if k ≠ H.M + 1 ∧ H.tn k = i + 1 then 1 else 0) := by
    funext h k
    by_cases hk : k = H.M + 1
    · rw [if_pos hk, if_neg (by tauto), add_zero, Function.update_eq_self]
    · rw [if_neg hk]
      congr 1
      by_cases ht : H.tn k = i + 1
      · rw [if_pos ht, if_pos ⟨hk, ht⟩]
      · rw [if_neg ht, if_neg (by tauto)]
  rw [hstep, foldl_update_add_at, idxList_map_sum]
  congr 1
  · by_cases hg : H.gn H.M = n
    · rw [if_pos hg, ← hg, Function.update_same]
      norm_num
    · rw [if_neg hg, Function.update_noteq (fun he => hg he.symm)]
  · rw [Finset.sum_Icc_succ_top (by omega)]
    have hterm : (if H.gn (H.M + 1 - 1) = n then
        (if H.M + 1 ≠ H.M + 1 ∧ H.tn (H.M + 1) = i + 1 then (1 : α) else 0)
        else 0) = 0 := by
      by_cases hg : H.gn (H.M + 1 - 1) = n
      · rw [if_pos hg, if_neg (by tauto)]
      · rw [if_neg hg]
    rw [hterm, add_zero, Finset.sum_filter]
    apply Finset.sum_congr rfl
    intro k hk
    have hkM := (Finset.mem_Icc.mp hk).2
    by_cases hg : H.gn (k - 1) = n
    · by_cases ht : H.tn k = i + 1
      · rw [if_pos hg, if_pos ⟨(by omega : k ≠ H.M + 1), ht⟩, if_pos ⟨hg, ht⟩]
      · rw [if_pos hg, if_neg (by tauto), if_neg (by tauto)]
    · rw [if_neg hg, if_neg (by tauto)]

/-- Closed form of H2: minus the total elapsed time spent at state n, over
all intervals including the terminal one. -/
lemma H2_arr_eq (H : HData α) (n : ℕ) :
    H2_arr H n
      = -(∑ k in (Finset.Icc 1 (H.M + 1)).filter (fun k => H.gn (k - 1) = n),
          (tk H k - H.ts (k - 1))) := by
  rw [H2_arr, foldl_update_sub_at, idxList_map_sum, Finset.sum_filter]
  simp

/-- Closed form of H3 for dimension i at the flattened index n * U + u:
minus the cumulative G integral of dimension i's own column at state n. -/
lemma H3_arrW_eq (Gf : ℕ → ℕ → ℕ → α) (H : HData α) (i n u : ℕ) (hu : u < H.U) :
    H3_arrW Gf H i (n * H.U + u)
      = -(∑ k in (Finset.Icc 1 (H.M + 1)).filter (fun k => H.gn (k - 1) = n),
          Gf u i k) := by
  rw [H3_arrW]
  have hres := foldl_modify_once
    (fun (h : ℕ → α) u' => (idxList 1 (H.M + 1)).foldl (fun h k =>
      Function.update h (H.gn (k - 1) * H.U + u')
        (h (H.gn (k - 1) * H.U + u') - Gf u' i k)) h)
    (n * H.U + u) u
    (fun a => a - ∑ k in (Finset.Icc 1 (H.M + 1)).filter
      (fun k => H.gn (k - 1) = n), Gf u i k)
    ?hmod (List.range H.U) (List.mem_range.mpr hu) (List.nodup_range H.U) ?hpres
    (fun _ => 0)
  · rw [hres]
    simp
  case hmod =>
    intro o
    dsimp only
    rw [foldl_update_sub_at, idxList_map_sum, Finset.sum_filter]
    congr 1
    apply Finset.sum_congr rfl
    intro k hk
    by_cases hg : H.gn (k - 1) = n
    · rw [if_pos (by rw [hg]), if_pos hg]
    · rw [if_neg ?hne, if_neg hg]
      case hne =>
        intro he
        have hU : 0 < H.U := by omega
        have := Nat.add_right_cancel he
        exact hg (Nat.eq_of_mul_eq_mul_right hU this)
  case hpres =>
    intro o b hb hne
    apply foldl_preserve
    intro o' k hk
    apply Function.update_noteq
    intro he
    have hbU : b < H.U := List.mem_range.mp hb
    have h1 : (n * H.U + u) % H.U = u := by
      rw [Nat.add_comm, Nat.add_mul_mod_self_right, Nat.mod_eq_of_lt hu]
    have h2 : (H.gn (k - 1) * H.U + b) % H.U = b := by
      rw [Nat.add_comm, Nat.add_mul_mod_self_right, Nat.mod_eq_of_lt hbU]
    rw [he, h2] at h1
    exact hne h1

/-- Claim C7: the gradient entry written for f_i[n] (before the final division
by Total_events and the negation) equals H1_i[n]/f_i[n] + mu_i * H2_i[n] +
sum over j and u of alpha_u_i_j * H3_j[n, u], where H1 gains 1 per event of
dimension i at state n[k-1] and loses 1 once at the final event's state, H2
loses every interval length, and H3_j loses G_j(k, u) at dimension j's own
kernel-u column, over all intervals including the terminal one. -/
theorem claim_C7_grad_f_entry (E : α → α) (H : HData α) (c : ℕ → α) (i n : ℕ)
    (hi : i < H.D) (hn : n < H.S) :
    gradRaw E H c (fIdx H i n)
      = ((if H.gn H.M = n then (-1 : α) else 0)
          + ∑ k in (Finset.Icc 1 H.M).filter
              (fun k => H.gn (k - 1) = n ∧ H.tn k = i + 1), (1 : α))
          / c (fIdx H i n)
        + c i * (-(∑ k in (Finset.Icc 1 (H.M + 1)).filter
              (fun k => H.gn (k - 1) = n), (tk H k - H.ts (k - 1))))
        + ∑ j in Finset.range H.D, ∑ u in Finset.range H.U,
            c (alphaIdx H u i j) *
              (-(∑ k in (Finset.Icc 1 (H.M + 1)).filter
                  (fun k => H.gn (k - 1) = n), G_arr E H u j k)) := by
  rw [gradRaw, gradRawW_at_f _ _ _ _ _ _ _ _ _ hi hn, grad_f_inW]
  rw [foldl_nested_add_eq, H1_arr_eq, H2_arr_eq, zero_add]
  congr 1
  apply Finset.sum_congr rfl
  intro j hj
  apply Finset.sum_congr rfl
  intro u hu
  rw [H3_arrW_eq _ _ _ _ _ (List.mem_range.mp hu)]

/-- Witness for claim C7 at the concrete dataset Hfix with all-one
coefficients: the raw gradient entry for f_0[0] evaluates to -2. -/
theorem claim_C7_witness : gradRaw Efix Hfix cfix (fIdx Hfix 0 0) = -2 := by
  have h := claim_C7_grad_f_entry Efix Hfix cfix 0 0
    (by norm_num [Hfix]) (by norm_num [Hfix])
  rw [h]
  norm_num [Hfix, cfix, Efix, alphaIdx, fIdx, G_arr, gG_rec, lagScan, tk,
    Finset.sum_range_succ, Finset.sum_filter, Finset.sum_Icc_succ_top,
    Finset.Icc_self, Finset.sum_singleton, Finset.filter_eq',
    Finset.card_singleton]

/-- A dataset exhibiting the boundary of the delay gate: events at t = 1 and
t = 2 of dimension 1, one kernel with decay 1 and lag 1, horizon T = 3; at
step k = 2 (timestamp 2) the event at t = 1 satisfies t_e = t_k - lag
exactly. -/
def Hlag : HData ℚ :=
  { D := 1, M := 2, U := 1, S := 1, T := 3,
    ts := fun k => if k = 1 then 1 else if k = 2 then 2 else 0,
    tn := fun k => if k = 1 then 1 else if k = 2 then 1 else 0,
    gn := fun _ => 0,
    decays := fun _ => 1,
    lags := fun _ => 1,
    Tot := 2 }

/-- Counterexample to claim C2 as stated: at the dataset Hlag the event at
index 1 sits exactly at the delayed gate of step k = 2 (ts 1 = tk 2 - lag)
and is of the tracked source dimension, yet the code's g at step 2 equals the
pure decay propagation of g at step 1 - the event is NOT included - whereas
the claim's stated contribution decay * E (-(decay * (tk 2 - lag - ts 1)))
would have to be added to g were it included. -/
theorem claim_C2_counterexample :
    Hlag.ts 1 = tk Hlag 2 - Hlag.lags 0
    ∧ Hlag.tn 1 = 0 + 1
    ∧ g_arr Efix Hlag 0 0 2
        = g_arr Efix Hlag 0 0 1 * Efix (-(Hlag.decays 0 * (tk Hlag 2 - Hlag.ts 1)))
    ∧ g_arr Efix Hlag 0 0 2
        ≠ g_arr Efix Hlag 0 0 1 * Efix (-(Hlag.decays 0 * (tk Hlag 2 - Hlag.ts 1)))
          + Hlag.decays 0 * Efix (-(Hlag.decays 0 * (tk Hlag 2 - Hlag.lags 0 - Hlag.ts 1))) := by
  refine ⟨by norm_num [Hlag, tk], rfl, ?_, ?_⟩
  · norm_num [Hlag, Efix, g_arr, gG_rec, lagScan, tk]
  · norm_num [Hlag, Efix, g_arr, gG_rec, lagScan, tk]

/-- Witness for the amended claim C2: its hypotheses hold at the dataset Hlag
and, applied at step k = 2 for kernel 0 and source dimension 0, it yields the
strict-gate step equations for g and G there. -/
theorem claim_C2_amended_witness :
    (g_arr Efix Hlag 0 0 2
        = g_arr Efix Hlag 0 0 1 * Efix (-(Hlag.decays 0 * (tk Hlag 2 - Hlag.ts 1)))
          + ∑ e in (Finset.Icc 1 Hlag.M).filter (fun e =>
              (¬ Hlag.ts e < tk Hlag 1 - Hlag.lags 0 ∧
                Hlag.ts e < tk Hlag 2 - Hlag.lags 0) ∧ Hlag.tn e = 0 + 1),
              Hlag.decays 0 * Efix (-(Hlag.decays 0 * (tk Hlag 2 - Hlag.lags 0 - Hlag.ts e)))
      ∧ G_arr Efix Hlag 0 0 2
        = (1 - Efix (-(Hlag.decays 0 * (tk Hlag 2 - Hlag.ts 1)))) / Hlag.decays 0
            * g_arr Efix Hlag 0 0 1
          + ∑ e in (Finset.Icc 1 Hlag.M).filter (fun e =>
              (¬ Hlag.ts e < tk Hlag 1 - Hlag.lags 0 ∧
                Hlag.ts e < tk Hlag 2 - Hlag.lags 0) ∧ Hlag.tn e = 0 + 1),
              (1 - Efix (-(Hlag.decays 0 * (tk Hlag 2 - Hlag.lags 0 - Hlag.ts e))))) := by
  have hm : ∀ a b : ℕ, a ≤ b → b ≤ Hlag.M → Hlag.ts a ≤ Hlag.ts b := by
    intro a b hab hb
    have hM : Hlag.M = 2 := rfl
    rw [hM] at hb
    interval_cases b <;> interval_cases a <;> norm_num [Hlag]
  exact claim_C2_amended Efix Hlag 0 0 2 hm (by norm_num [Hlag])
    (by norm_num [Hlag]) (by norm_num) (by norm_num [Hlag])

/-- Witness for the amended claim C4: at the dataset Hfix with the
negative-baseline coefficients cneg the negativity hypothesis holds, and the
amended claim evaluates the mu entry of grad to 3. -/
theorem claim_C4_amended_witness : grad Efix Hfix cneg 0 = 3 := by
  have h := claim_C4_amended Efix Hfix cneg 0 (by norm_num [Hfix])
    ⟨1, by norm_num, by norm_num [Hfix], rfl,
      by norm_num [Hfix, cneg, Efix, alphaIdx, g_arr, gG_rec, lagScan,
        Finset.sum_range_succ]⟩
  rw [h]
  norm_num [Hfix, cneg, Efix, alphaIdx, fIdx, g_arr, gG_rec, lagScan, tk,
    Finset.sum_range_succ, Finset.sum_Icc_succ_top, Finset.Icc_self,
    Finset.sum_filter, Finset.sum_singleton]

/-- Witness for claim C5: at the dataset Hfix (single kernel, lag 0) with the
multiplicative map Efix, the recursive g at the event k = 1 equals the
brute-force sum. -/
theorem claim_C5_witness :
    g_arr Efix Hfix 0 0 1 = gBruteForce Efix Hfix (Hfix.decays 0) 0 1 := by
  have hm : ∀ a b : ℕ, a ≤ b → b ≤ Hfix.M → Hfix.ts a ≤ Hfix.ts b := by
    intro a b hab hb
    have hM : Hfix.M = 1 := rfl
    rw [hM] at hb
    interval_cases b <;> interval_cases a <;> norm_num [Hfix]
  exact claim_C5_recursive_eq_bruteforce Efix Hfix 0 1 rfl rfl hm
    (by norm_num [Hfix]) (by intro x y; norm_num [Efix]) (by norm_num)
    (by norm_num [Hfix])

/-! The data-binding path: n_total_jumps and Total_events (source lines 14,
113-146). -/

/-- Modelled from the spec: ModelHawkesSingle set_data (base class, outside
src/) records one timestamp stream per node and sets n_total_jumps to the
total jump count over all supplied streams; n_jumps_per_node j is the length
of stream j. -/
def nTotalJumps (tss : List (List α)) : ℕ := (tss.map List.length).sum

/-- Total_events as allocate_weights computes it (source line 14):
n_total_jumps - n_jumps_per_node[n_nodes], where n_nodes has already been
decremented by set_data (source line 145), so the subtracted count is the
length of the last supplied stream. -/
def Total_events (tss : List (List α)) : ℕ :=
  nTotalJumps tss - (tss.getD (tss.length - 1) []).length

/-- Claim C8: for every bound dataset, Total_events equals the sum of the
per-dimension event counts of the D modeled dimensions, that is, the total
merged jump count minus the event count of the last supplied
(state-driving) stream. -/
theorem claim_C8_total_events (tss : List (List α)) (hne : tss ≠ []) :
    Total_events tss = ((tss.dropLast).map List.length).sum := by
  rcases (List.eq_nil_or_concat tss) with h | ⟨L, b, h⟩
  · exact absurd h hne
  · subst h
    rw [List.concat_eq_append, Total_events, nTotalJumps]
    rw [List.dropLast_concat]
    rw [List.map_append, List.sum_append]
    have hlen : (L ++ [b]).length - 1 = L.length := by
      rw [List.length_append]
      simp
    rw [hlen]
    have hget : (L ++ [b]).getD L.length [] = b := by
      rw [List.getD, List.get?_concat_length]
      rfl
    rw [hget]
    simp

/-- Witness for claim C8 at a concrete dataset of two streams. -/
theorem claim_C8_witness :
    Total_events [[(1 : ℚ)], [2, 3]]
        = ((([[(1 : ℚ)], [2, 3]]).dropLast).map List.length).sum
    ∧ Total_events [[(1 : ℚ)], [2, 3]] = 1 := by
  refine ⟨claim_C8_total_events _ (by simp), ?_⟩
  rfl

/-! The stateful call protocol: lazy weight computation and per-call reset of
the sum_G scratch (claim C9). -/

/-- The mutable weight-cache state of the model object: the lazy flag
weights_computed, the cached arrays g, G, H1, H2, H3 and the sum_G scratch. -/
structure MState (α : Type) where
  weightsComputed : Bool
  gW : ℕ → ℕ → ℕ → α
  GW : ℕ → ℕ → ℕ → α
  h1W : ℕ → ℕ → α
  h2W : ℕ → ℕ → α
  h3W : ℕ → ℕ → α
  sumGW : ℕ → ℕ → α

/-- compute_weights: allocates and fills every cache from the data alone (the
computation never reads the coefficients) and raises the flag; sum_G is
zero-initialised by allocate_weights (source lines 34-35). -/
def computeWeights (E : α → α) (H : HData α) (_s : MState α) : MState α :=
  { weightsComputed := true,
    gW := fun u j k => g_arr E H u j k,
    GW := fun u j k => G_arr E H u j k,
    h1W := fun i n => H1_arr H i n,
    h2W := fun _ n => H2_arr H n,
    h3W := fun j x => H3_arrW (G_arr E H) H j x,
    sumGW := fun _ _ => 0 }

/-- One loss(coeffs) call on the stateful object (source lines 148-157):
compute the weights lazily on the first call, reset the sum_G scratch (source
line 207, per dimension on every call), then evaluate read-only against the
cache. -/
def lossCall (E L : α → α) (H : HData α) (c : ℕ → α) (s : MState α) :
    MState α × Option α :=
  let s1 := if s.weightsComputed then s else computeWeights E H s
  let s2 := { s1 with sumGW := fun _ _ => 0 }
  (s2, lossW s2.gW s2.GW L H c)

/-- One grad(coeffs, out) call on the stateful object (source lines 324-340):
compute the weights lazily on the first call, then evaluate read-only against
the cache. -/
def gradCall (E : α → α) (H : HData α) (c : ℕ → α) (s : MState α) :
    MState α × (ℕ → α) :=
  let s1 := if s.weightsComputed then s else computeWeights E H s
  (s1, gradW s1.gW s1.GW s1.h1W s1.h2W s1.h3W H c)

/-- Claim C9: two successive calls to loss (and likewise to grad) with
identical coefficients and no re-binding of data return identical results:
the lazy weight computation and the per-call reset of the sum_G scratch leave
the cached state in a form that makes the second evaluation equal to the
first, from any starting state. -/
theorem claim_C9_repeat_calls (E L : α → α) (H : HData α) (c : ℕ → α)
    (s : MState α) :
    (lossCall E L H c (lossCall E L H c s).1).2 = (lossCall E L H c s).2
    ∧ (gradCall E H c (gradCall E H c s).1).2 = (gradCall E H c s).2 := by
  constructor
  · by_cases hw : s.weightsComputed <;>
      simp [lossCall, hw, computeWeights]
  · by_cases hw : s.weightsComputed <;>
      simp [gradCall, hw, computeWeights]

/-! Bounds safety of compute_weights_dim_i (claim C10): a second rendering of
the scan and k-loops in which global_timestamps and type_n are lists of their
actual allocated length M + 1 and every array read is checked; a none result
marks an out-of-bounds read.  The g and G rows are functions of k, written
only at k = 0..M+1, matching the M + 2 allocated rows. -/

lemma getElem?_eq_getD {β : Type} {l : List β} {n : ℕ} (df : β)
    (h : n < l.length) : l[n]? = some (l.getD n df) := by
  rw [List.getD_eq_getElem?_getD]
  rcases hq : l[n]? with _ | a
  · rw [List.getElem?_eq_none_iff] at hq; omega
  · rfl

/-- The inner while-loop with checked reads: the condition itself reads
global_timestamps at the scan index, exactly as source line 74 does.  The
variant fuel = M + 2 - ptr never runs out for a reachable scan index
(ptr is at most M + 1), so none certifies an out-of-bounds read. -/
def lagScanChk (E : α → α) (d l : α) (j M : ℕ) (tsL : List α) (tnL : List ℕ)
    (t : α) : ℕ → ℕ → Option (α × α × ℕ)
  | _, 0 => none
  | ptr, fuel + 1 =>
    match tsL[ptr]?, tnL[ptr]? with
    | some tp, some ty =>
      if tp < t - l then
        let cg := if ty = j + 1 then d * E (-(d * (t - l - tp))) else 0
        let cG := if ty = j + 1 then 1 - E (-(d * (t - l - tp))) else 0
        if M < ptr + 1 then some (cg, cG, ptr + 1)
        else
          match lagScanChk E d l j M tsL tnL t (ptr + 1) fuel with
          | some r => some (cg + r.1, cG + r.2.1, r.2.2)
          | none => none
      else some (0, 0, ptr)
    | _, _ => none

/-- The k-loop of compute_weights_dim_i with checked reads (source lines
63-88): step k reads global_timestamps at k - 1, at k when k is not the
terminal step, and runs the checked scan. -/
def gG_recChk (E : α → α) (M : ℕ) (T : α) (tsL : List α) (tnL : List ℕ)
    (d l : α) (j : ℕ) : ℕ → Option (α × α × ℕ)
  | 0 => some (0, 0, 1)
  | k + 1 =>
    match gG_recChk E M T tsL tnL d l j k with
    | none => none
    | some p =>
      match tsL[k]?, (if k + 1 = M + 1 then some T else tsL[k + 1]?) with
      | some tkm1, some t =>
        let ebt := E (-(d * (t - tkm1)))
        match lagScanChk E d l j M tsL tnL t p.2.2 (M + 2 - p.2.2) with
        | some s => some (p.1 * ebt + s.1, (1 - ebt) / d * p.1 + s.2.1, s.2.2)
        | none => none
      | _, _ => none

lemma lagScanChk_spec (E : α → α) (d l : α) (j M : ℕ) (tsL : List α)
    (tnL : List ℕ) (t : α) (hts : tsL.length = M + 1) (htn : tnL.length = M + 1) :
    ∀ fuel ptr, fuel = M + 2 - ptr → ptr ≤ M →
      ∃ g G p, lagScanChk E d l j M tsL tnL t ptr fuel = some (g, G, p) ∧
        ptr ≤ p ∧ p ≤ M + 1 ∧ (p = M + 1 → tsL.getD M 0 < t - l) := by
  intro fuel
  induction fuel with
  | zero =>
    intro ptr hfuel hptr
    omega
  | succ fuel ih =>
    intro ptr hfuel hptr
    have h1 : ptr < tsL.length := by omega
    have h2 : ptr < tnL.length := by omega
    by_cases hcond : tsL.getD ptr 0 < t - l
    · by_cases hbreak : M < ptr + 1
      · have heq : lagScanChk E d l j M tsL tnL t ptr (fuel + 1)
            = some ((if tnL.getD ptr 0 = j + 1 then
                  d * E (-(d * (t - l - tsL.getD ptr 0))) else 0),
                (if tnL.getD ptr 0 = j + 1 then
                  1 - E (-(d * (t - l - tsL.getD ptr 0))) else 0),
                ptr + 1) := by
          simp only [lagScanChk, getElem?_eq_getD (0 : α) h1, getElem?_eq_getD (0 : ℕ) h2]
          rw [if_pos hcond, if_pos hbreak]
        refine ⟨_, _, ptr + 1, heq, by omega, by omega, ?_⟩
        intro hp
        have hpM : ptr = M := by omega
        rw [← hpM]
        exact hcond
      · obtain ⟨g, G, p, hr, hp1, hp2, hp3⟩ := ih (ptr + 1) (by omega) (by omega)
        have heq : lagScanChk E d l j M tsL tnL t ptr (fuel + 1)
            = some ((if tnL.getD ptr 0 = j + 1 then
                  d * E (-(d * (t - l - tsL.getD ptr 0))) else 0) + g,
                (if tnL.getD ptr 0 = j + 1 then
                  1 - E (-(d * (t - l - tsL.getD ptr 0))) else 0) + G,
                p) := by
          simp only [lagScanChk, getElem?_eq_getD (0 : α) h1, getElem?_eq_getD (0 : ℕ) h2]
          rw [if_pos hcond, if_neg hbreak, hr]
        exact ⟨_, _, p, heq, by omega, hp2, hp3⟩
    · have heq : lagScanChk E d l j M tsL tnL t ptr (fuel + 1)
          = some (0, 0, ptr) := by
        simp only [lagScanChk, getElem?_eq_getD (0 : α) h1, getElem?_eq_getD (0 : ℕ) h2]
        rw [if_neg hcond]
      exact ⟨0, 0, ptr, heq, le_refl _, by omega, fun hp => absurd hp (by omega)⟩

/-- Claim C10 (amended): on a validly bound dataset with at least one merged
event (M at least 1), sorted timestamps and a nonnegative lag, every checked
array access of the weight-computation loop succeeds at every step
k = 0..M+1, and the scan pointer stays within 1..M+1, reading only indices
up to M. -/
theorem claim_C10_amended (E : α → α) (M : ℕ) (T : α) (tsL : List α)
    (tnL : List ℕ) (d l : α) (j : ℕ)
    (hts : tsL.length = M + 1) (htn : tnL.length = M + 1) (hM : 1 ≤ M)
    (hm : ∀ a b, a ≤ b → b ≤ M → tsL.getD a 0 ≤ tsL.getD b 0) (hl : 0 ≤ l) :
    ∀ k, k ≤ M + 1 →
      ∃ g G p, gG_recChk E M T tsL tnL d l j k = some (g, G, p) ∧
        1 ≤ p ∧ (k ≤ M → p ≤ M) ∧ p ≤ M + 1 := by
  intro k
  induction k with
  | zero =>
    intro hk
    exact ⟨0, 0, 1, rfl, le_refl _, fun _ => hM, by omega⟩
  | succ k ih =>
    intro hk
    obtain ⟨g, G, p, hrec, hq1, hq2, hq3⟩ := ih (by omega)
    have hpM : p ≤ M := hq2 (by omega)
    have hk1 : k < tsL.length := by omega
    by_cases hterm : k + 1 = M + 1
    · obtain ⟨g', G', p', hscan, hs1, hs2, hs3⟩ :=
        lagScanChk_spec E d l j M tsL tnL T hts htn (M + 2 - p) p rfl hpM
      have heq : gG_recChk E M T tsL tnL d l j (k + 1)
          = some (g * E (-(d * (T - tsL.getD k 0))) + g',
              (1 - E (-(d * (T - tsL.getD k 0)))) / d * g + G', p') := by
        simp only [gG_recChk, hrec, getElem?_eq_getD (0 : α) hk1, if_pos hterm, hscan]
      exact ⟨_, _, p', heq, by omega, fun hcon => absurd hcon (by omega), hs2⟩
    · have hk2 : k + 1 < tsL.length := by omega
      obtain ⟨g', G', p', hscan, hs1, hs2, hs3⟩ :=
        lagScanChk_spec E d l j M tsL tnL (tsL.getD (k + 1) 0) hts htn
          (M + 2 - p) p rfl hpM
      have heq : gG_recChk E M T tsL tnL d l j (k + 1)
          = some (g * E (-(d * (tsL.getD (k + 1) 0 - tsL.getD k 0))) + g',
              (1 - E (-(d * (tsL.getD (k + 1) 0 - tsL.getD k 0)))) / d * g + G',
              p') := by
        simp only [gG_recChk, hrec, getElem?_eq_getD (0 : α) hk1, if_neg hterm,
          getElem?_eq_getD (0 : α) hk2, hscan]
      refine ⟨_, _, p', heq, by omega, ?_, hs2⟩
      intro hkM
      by_contra hcon
      have hp' : p' = M + 1 := by omega
      have hlt := hs3 hp'
      have hmono := hm (k + 1) M (by omega) (le_refl M)
      linarith

/-- Counterexample to claim C10 as stated: a validly bound dataset with zero
merged events (M = 0, so global_timestamps and type_n both have length
M + 1 = 1, trivially sorted, lag 0) makes the very first evaluation of the
while-condition at step k = 1 read global_timestamps[1], which is out of
bounds - the checked weight loop returns none, and the offending read
[0][1]? is indeed past the end. -/
theorem claim_C10_counterexample :
    gG_recChk (fun x : ℚ => x) 0 1 [0] [0] 1 0 0 1 = none
    ∧ ([(0 : ℚ)].length = 0 + 1 ∧ ([0] : List ℕ).length = 0 + 1)
    ∧ ([(0 : ℚ)])[1]? = none := by
  exact ⟨rfl, ⟨rfl, rfl⟩, rfl⟩

/-- Witness for the amended claim C10: on the dataset with one event at t = 1
and horizon 2, every checked access of the weight loop succeeds through the
terminal step k = 2. -/
theorem claim_C10_witness :
    (gG_recChk (fun x : ℚ => x) 1 2 [0, 1] [0, 1] 1 0 0 2).isSome = true := by
  have hm : ∀ a b, a ≤ b → b ≤ 1 →
      ([0, 1] : List ℚ).getD a 0 ≤ ([0, 1] : List ℚ).getD b 0 := by
    intro a b hab hb
    interval_cases b <;> interval_cases a <;> norm_num
  obtain ⟨g, G, p, heq, -, -, -⟩ :=
    claim_C10_amended (fun x : ℚ => x) 1 2 [0, 1] [0, 1] 1 0 0 rfl rfl
      (le_refl 1) hm (le_refl 0) 2 (le_refl 2)
  rw [heq]
  rfl

end HawkesLag
